import Mathlib

/-!
# xdpfilter: a shallow embedding of the packet classifier and the rate engine

The development follows the two C translation units of the repository:

* `src/xdpfilter.bpf.c`: the XDP program `xdp_prog_simple` (namespace `Bpf`);
* `src/xdpfilter.c`: the user-space control plane, `handle_event`, `calculate_rates`,
  `make_ghost`, `swap_hash` (namespace `User`).

Machine integers are natural numbers, reduced modulo `2^w` where the C code narrows.
The `double` arithmetic of `calculate_rates` is carried out on rationals that are rounded
after every operation to the nearest binary64 value (`to_double`).
Packet memory is a list of bytes placed at the address `data`.  The host byte
order is a parameter `le` (`true` on a little-endian host), so that every statement
holds for both the `bpfel` and the `bpfeb` target.
-/

namespace Xdpfilter

/-- The record of `struct event` in `xdpfilter.h`; all fields are in host byte order. -/
structure event where
  host : Nat
  dest : Nat
  port : Nat
  deriving DecidableEq, Repr

/-- The constant `ETH_P_IPV6` of `xdpfilter.h`. -/
def ETH_P_IPV6 : Nat := 0x86DD

/-- The kernel hash map `blacklist`: the keys (source addresses in host byte order) that
are present.  The stored value is the constant `blocked = true`, so presence is the
whole content. -/
abbrev bpf_map := List Nat

/-- The `max_entries` of the `blacklist` map in `xdpfilter.bpf.c`. -/
def max_entries : Nat := 8192

namespace Bpf

/-- The verdicts of `enum xdp_action`. -/
inductive xdp_action where
  | XDP_ABORTED
  | XDP_DROP
  | XDP_PASS
  | XDP_TX
  | XDP_REDIRECT
  deriving DecidableEq, Repr

open xdp_action

/-- The packet handed to the program: `data` is the address of the first byte of the
frame and `pkt` holds the bytes of the frame, so that `data_end = data + pkt.length`. -/
structure xdp_md where
  data : Nat
  pkt : List Nat
  deriving DecidableEq, Repr

/-- The address one past the last byte of the frame. -/
def xdp_md.data_end (ctx : xdp_md) : Nat := ctx.data + ctx.pkt.length

/-- One byte of packet memory at address `addr`. -/
def load_u8 (ctx : xdp_md) (addr : Nat) : Nat :=
  (ctx.pkt.getD (addr - ctx.data) 0) % 256

/-- A 16-bit load in host byte order. -/
def load_u16 (le : Bool) (ctx : xdp_md) (addr : Nat) : Nat :=
  if le then load_u8 ctx addr + 256 * load_u8 ctx (addr + 1)
  else 256 * load_u8 ctx addr + load_u8 ctx (addr + 1)

/-- A 32-bit load in host byte order. -/
def load_u32 (le : Bool) (ctx : xdp_md) (addr : Nat) : Nat :=
  if le then
    load_u8 ctx addr + 256 * load_u8 ctx (addr + 1) + 65536 * load_u8 ctx (addr + 2)
      + 16777216 * load_u8 ctx (addr + 3)
  else
    16777216 * load_u8 ctx addr + 65536 * load_u8 ctx (addr + 1) + 256 * load_u8 ctx (addr + 2)
      + load_u8 ctx (addr + 3)

/-- The byte swap `___bpf_swab16`. -/
def bswap16 (x : Nat) : Nat := (x % 256) * 256 + (x / 256) % 256

/-- The byte swap `___bpf_swab32`. -/
def bswap32 (x : Nat) : Nat :=
  (x % 256) * 16777216 + (x / 256 % 256) * 65536 + (x / 65536 % 256) * 256
    + (x / 16777216) % 256

/-- The conversion `bpf_ntohs` of `bpf_endian.h`: a swap on a little-endian host. -/
def bpf_ntohs (le : Bool) (x : Nat) : Nat := if le then bswap16 x else x % 65536

/-- The conversion `bpf_ntohl` of `bpf_endian.h`: a swap on a little-endian host. -/
def bpf_ntohl (le : Bool) (x : Nat) : Nat := if le then bswap32 x else x % 4294967296

/-- The kernel helper `bpf_map_lookup_elem`, read as the `bool found` of the program:
the returned pointer is non-null exactly when the key is present. -/
def bpf_map_lookup_elem (blacklist : bpf_map) (key : Nat) : Bool := decide (key ∈ blacklist)

/-- The size of `struct ethhdr`. -/
def sizeof_ethhdr : Nat := 14

/-- The size of `struct iphdr`. -/
def sizeof_iphdr : Nat := 20

/-- The size of `struct tcphdr`. -/
def sizeof_tcphdr : Nat := 20

/-- The program `xdp_prog_simple` of `xdpfilter.bpf.c`.  The result is the returned
verdict and the list of records submitted to the ring buffer by this call.
`reserve_ok` tells whether `bpf_ringbuf_reserve` returns a slot.  The local `action`
(here `_action`) is assigned from the blacklist lookup and never read afterwards: every
`return` of the source names a constant.  The comparisons are
those of the source, the third one included, which compares the plain offset
`offset + iphdr_len` with the address `data_end`. -/
def xdp_prog_simple (le : Bool) (blacklist : bpf_map) (reserve_ok : Bool) (ctx : xdp_md) :
    xdp_action × List event :=
  let data := ctx.data
  let data_end := ctx.data_end
  let ethh := data
  let offset := sizeof_ethhdr
  if data + offset > data_end then (XDP_DROP, []) else
  let eth_type := load_u16 le ctx (ethh + 12)
  if eth_type = bpf_ntohs le ETH_P_IPV6 then (XDP_PASS, []) else
  let iph := data + offset
  if iph + sizeof_iphdr > data_end then (XDP_DROP, []) else
  let host := bpf_ntohl le (load_u32 le ctx (iph + 12))
  let found := bpf_map_lookup_elem blacklist host
  let _action := if found then XDP_DROP else XDP_PASS
  let iphdr_len := ((load_u8 ctx iph % 16) * 4) % 256
  if offset + iphdr_len > data_end then (XDP_DROP, []) else
  let offset := offset + iphdr_len
  let tcph := data + offset
  if tcph + sizeof_tcphdr > data_end then (XDP_DROP, []) else
  let syn := (load_u8 ctx (tcph + 13) / 2) % 2
  let ack := (load_u8 ctx (tcph + 13) / 16) % 2
  if syn ≠ 0 ∧ ¬ (ack ≠ 0) then
    if ¬ reserve_ok then (XDP_PASS, [])
    else
      let e : event :=
        ⟨bpf_ntohl le (load_u32 le ctx (iph + 12)),
         bpf_ntohl le (load_u32 le ctx (iph + 16)),
         bpf_ntohs le (load_u16 le ctx (tcph + 2))⟩
      (XDP_PASS, [e])
  else (XDP_PASS, [])

/-! ### Wire-format readings of a frame, independent of the host byte order -/

/-- The byte of the frame at offset `off` (0 beyond the end). -/
def byte_at (ctx : xdp_md) (off : Nat) : Nat := (ctx.pkt.getD off 0) % 256

/-- The big-endian (network order) 16-bit value at offset `off`. -/
def be16_at (ctx : xdp_md) (off : Nat) : Nat := 256 * byte_at ctx off + byte_at ctx (off + 1)

/-- The big-endian (network order) 32-bit value at offset `off`. -/
def be32_at (ctx : xdp_md) (off : Nat) : Nat :=
  16777216 * byte_at ctx off + 65536 * byte_at ctx (off + 1) + 256 * byte_at ctx (off + 2)
    + byte_at ctx (off + 3)

/-- The EtherType of the frame (bytes 12 and 13). -/
def ether_type (ctx : xdp_md) : Nat := be16_at ctx 12

/-- The IHL nibble of the IPv4 header that starts at offset 14. -/
def ihl (ctx : xdp_md) : Nat := byte_at ctx 14 % 16

/-- The protocol field of the IPv4 header (offset 9 in the header). -/
def ip_protocol (ctx : xdp_md) : Nat := byte_at ctx 23

/-- The IPv4 source address in host numbering, `ntohl(saddr)`. -/
def ip_saddr (ctx : xdp_md) : Nat := be32_at ctx 26

/-- The IPv4 destination address in host numbering, `ntohl(daddr)`. -/
def ip_daddr (ctx : xdp_md) : Nat := be32_at ctx 30

/-- The offset of the TCP header, `14 + IHL * 4`. -/
def tcp_off (ctx : xdp_md) : Nat := 14 + ihl ctx * 4

/-- The TCP destination port in host numbering, `ntohs(dest)`. -/
def tcp_dport (ctx : xdp_md) : Nat := be16_at ctx (tcp_off ctx + 2)

/-- The SYN flag: bit 1 of the flag byte at offset 13 of the TCP header. -/
def tcp_syn (ctx : xdp_md) : Bool := decide ((byte_at ctx (tcp_off ctx + 13) / 2) % 2 = 1)

/-- The ACK flag: bit 4 of the flag byte at offset 13 of the TCP header. -/
def tcp_ack (ctx : xdp_md) : Bool := decide ((byte_at ctx (tcp_off ctx + 13) / 16) % 2 = 1)

/-- A 54-byte frame: Ethernet header with EtherType `et`, a 20-byte IPv4 header with
protocol `proto`, source `10.0.0.1`, destination `192.168.1.1`, and a 20-byte TCP header
with destination port 80 and flag byte `flags`. -/
def frame (et0 et1 proto flags : Nat) : List Nat :=
  [0, 0, 0, 0, 0, 1, 0, 0, 0, 0, 0, 2, et0, et1,
   0x45, 0, 0, 40, 0, 0, 0, 0, 64, proto, 0, 0, 10, 0, 0, 1, 192, 168, 1, 1,
   0x30, 0x39, 0, 80, 0, 0, 0, 0, 0, 0, 0, 0, 0x50, flags, 0, 0, 0, 0, 0, 0]

/-- The record that `xdp_prog_simple` fills for a SYN, read off the wire format. -/
def syn_event (ctx : xdp_md) : event := ⟨ip_saddr ctx, ip_daddr ctx, tcp_dport ctx⟩

/-- The bounds checks of `xdp_prog_simple` on a frame that is not IPv6: at least 14
bytes, a complete 20-byte IPv4 header, a complete 20-byte TCP header at `14 + IHL * 4`. -/
def passes_checks (ctx : xdp_md) : Prop :=
  14 ≤ ctx.pkt.length ∧ ether_type ctx ≠ 0x86DD ∧ 14 + 20 ≤ ctx.pkt.length ∧
    tcp_off ctx + 20 ≤ ctx.pkt.length

instance (ctx : xdp_md) : Decidable (passes_checks ctx) := by
  unfold passes_checks; infer_instance

end Bpf

namespace User

/-- The settings of `static struct env` that the rate engine reads. -/
structure env where
  num_packets : Int
  time_period : Int
  deriving DecidableEq, Repr

/-- The defaults that `main` stores before parsing the command line. -/
def env_default : env := ⟨3, 60⟩

/-- The two bytes `handle_event` writes for a port (`unsigned short`, in a cell of
`apr_palloc(curr_pool, sizeof(unsigned short))`), and the two bytes that follow them in
the pool block: `pad` is whatever the pool held there, `handle_event` never writes it. -/
structure port_cell where
  port : Nat
  pad : Nat
  deriving DecidableEq, Repr

/-- The `unsigned int` that `skiplist_compare` reads through `*(unsigned int *)a` at a
port cell: the four bytes starting at the port. -/
def uint_at (le : Bool) (c : port_cell) : Nat :=
  if le then c.port % 65536 + 65536 * (c.pad % 65536)
  else 65536 * (c.port % 65536) + c.pad % 65536

/-- The comparator `skiplist_compare` of `xdpfilter.c`. -/
def skiplist_compare (le : Bool) (a b : port_cell) : Int :=
  if uint_at le a < uint_at le b then -1
  else if uint_at le a = uint_at le b then 0
  else 1

/-- An APR skip list, as the sequence of its elements in list order. -/
abbrev apr_skiplist := List port_cell

/-- The empty list made by `apr_skiplist_init`. -/
def apr_skiplist_init : apr_skiplist := []

/-- The element count `apr_skiplist_size`. -/
def apr_skiplist_size (sl : apr_skiplist) : Nat := sl.length

/-- The APR operation `apr_skiplist_replace_compare`: walk past the elements that compare
below `data`, remove the elements that compare equal to it, and link `data` in front of
the first element that compares above it. -/
def apr_skiplist_replace_compare (sl : apr_skiplist) (data : port_cell)
    (comp : port_cell → port_cell → Int) : apr_skiplist :=
  match sl with
  | [] => [data]
  | x :: rest =>
    if comp data x > 0 then x :: apr_skiplist_replace_compare rest data comp
    else if comp data x = 0 then apr_skiplist_replace_compare rest data comp
    else data :: x :: rest

/-- The record of `struct element`: the port list of a source and a destination. -/
structure element where
  list : apr_skiplist
  dest : Nat
  deriving DecidableEq, Repr

/-- An APR hash table from source addresses to elements, as its entries. -/
abbrev apr_hash := List (Nat × element)

/-- The lookup `apr_hash_get`. -/
def apr_hash_get (ht : apr_hash) (key : Nat) : Option element :=
  match ht with
  | [] => none
  | (k, v) :: rest => if k = key then some v else apr_hash_get rest key

/-- The update `apr_hash_set` with a non-null value: the entry of `key` is overwritten,
or a new entry is added. -/
def apr_hash_set (ht : apr_hash) (key : Nat) (val : element) : apr_hash :=
  match ht with
  | [] => [(key, val)]
  | (k, v) :: rest =>
    if k = key then (key, val) :: rest else (k, v) :: apr_hash_set rest key val

/-- The table after `apr_hash_clear`. -/
def apr_hash_clear (_ht : apr_hash) : apr_hash := []

/-- The iteration `apr_hash_do`: the callback is run on every entry, threading the state
that the callback reaches through its `rec` pointer. -/
def apr_hash_do {σ : Type} (comp : σ → Nat → element → σ) (rec : σ) (ht : apr_hash) : σ :=
  ht.foldl (fun st kv => comp st kv.1 kv.2) rec

/-- The tables of `struct context`.  The two pools hold the storage of the entries of the
table of the same name and carry no content of their own; `sample_fd` and `blacklist_fd`
stand for the timer value and the kernel map, which are passed where they are read. -/
structure context where
  prev : apr_hash
  curr : apr_hash
  deriving DecidableEq, Repr

/-- The callback `handle_event` of `xdpfilter.c`, run by the ring buffer on one record.
`pad` is the content of the two pool bytes behind the port cell allocated by this call. -/
def handle_event (le : Bool) (ctx2 : context) (e : event) (pad : Nat) : context :=
  let host_addr := e.host
  let port : port_cell := ⟨e.port, pad⟩
  let val := apr_hash_get ctx2.curr host_addr
  let list := apr_skiplist_init
  let elem : element := ⟨list, e.dest⟩
  match val with
  | none =>
    let elem : element :=
      ⟨apr_skiplist_replace_compare elem.list port (skiplist_compare le), elem.dest⟩
    ⟨ctx2.prev, apr_hash_set ctx2.curr host_addr elem⟩
  | some v =>
    let v : element := ⟨apr_skiplist_replace_compare v.list port (skiplist_compare le), v.dest⟩
    ⟨ctx2.prev, apr_hash_set ctx2.curr host_addr v⟩

/-- The records drained by one `ring_buffer__consume`, each with the pad bytes of its
port cell, handled in order. -/
def handle_events (le : Bool) (ctx : context) (evs : List (event × Nat)) : context :=
  evs.foldl (fun c ep => handle_event le c ep.1 ep.2) ctx

/-- The time value `struct timespec`. -/
structure timespec where
  tv_sec : Int
  tv_nsec : Int
  deriving DecidableEq, Repr

/-- The timer setting `struct itimerspec`. -/
structure itimerspec where
  it_interval : timespec
  it_value : timespec
  deriving DecidableEq, Repr

/-- The setting `sample_its` with which `main` arms the sample timer. -/
def sample_its (e : env) : itimerspec := ⟨⟨e.time_period, 0⟩, ⟨e.time_period, 0⟩⟩

/-- The user-space wrapper `bpf_map_lookup_elem`: 0 when the key is present, a negative
error code (`-ENOENT`) when it is not. -/
def bpf_map_lookup_elem (m : bpf_map) (key : Nat) : Int := if key ∈ m then 0 else -2

/-- The flag `BPF_NOEXIST`. -/
def BPF_NOEXIST : Nat := 1

/-- The flag `BPF_EXIST`. -/
def BPF_EXIST : Nat := 2

/-- The user-space wrapper `bpf_map_update_elem` on a hash map of `max_entries` slots,
as the map it leaves: a present key keeps its (constant) value, an absent key is added
unless the flag is `BPF_EXIST` or the map is full. -/
def bpf_map_update_elem (m : bpf_map) (key : Nat) (flags : Nat) : bpf_map :=
  if key ∈ m then m
  else if flags = BPF_EXIST then m
  else if m.length ≥ max_entries then m
  else key :: m

/-- The user-space wrapper `bpf_map_delete_elem`, as the map it leaves. -/
def bpf_map_delete_elem (m : bpf_map) (key : Nat) : bpf_map := m.filter (fun k => k ≠ key)

/-- The integer nearest to `q`, the even one of the two when `q` lies halfway. -/
def round_nearest_even (q : ℚ) : ℤ :=
  let f := ⌊q⌋
  let r := q - f
  if r < 1 / 2 then f
  else if 1 / 2 < r then f + 1
  else if f % 2 = 0 then f
  else f + 1

/-- The value of a C `double` (IEEE 754 binary64, 53 significant bits) that an exact
result `q` is rounded to, in the default mode round-to-nearest, ties-to-even: `q` is
scaled by the unit in the last place of its binade, `2 ^ (e - 52)` with
`2 ^ e ≤ |q| < 2 ^ (e + 1)`, rounded to an integer and scaled back.  Exponent overflow
and subnormal results are left out: the values that `calculate_rates` forms from an
`unsigned int` and a `long` are 0 or lie between `1 / 60` and `2 ^ 96` in magnitude. -/
def to_double (q : ℚ) : ℚ :=
  if q = 0 then 0
  else
    let e := Int.log 2 |q|
    let ulp : ℚ := 2 ^ (e - 52)
    (round_nearest_even (q / ulp) : ℚ) * ulp

/-- The factor `((long int)(curr_value->it_value.tv_sec))/60.0` of `calculate_rates`: the
`long` is converted to `double` and divided by the `double` constant 60, each step
rounded as the `double` arithmetic of the source rounds it. -/
def weight (it_value : timespec) : ℚ := to_double (to_double (it_value.tv_sec : ℚ) / 60)

/-- The value of the local `rate` of `calculate_rates` for the entry `(key, value)` of the
current table, `prev_count * weight + curr_count` in `double` arithmetic: the two counts
are `unsigned int` (the sizes modulo `2 ^ 32`, which convert to `double` without
rounding), the product is rounded, then the sum (two operations, not fused). -/
def rate (rec : context) (it_value : timespec) (key : Nat) (value : element) : ℚ :=
  let val := apr_hash_get rec.prev key
  let prev_count : Nat :=
    match val with
    | some v => apr_skiplist_size v.list % 4294967296
    | none => 0
  let curr_count : Nat := apr_skiplist_size value.list % 4294967296
  to_double (to_double ((prev_count : ℚ) * weight it_value) + (curr_count : ℚ))

/-- The value that the comparisons `rate > env.num_packets` and `rate <= env.num_packets`
of `calculate_rates` compare `rate` with: the `long` setting converted to `double`. -/
def threshold (env : env) : ℚ := to_double (env.num_packets : ℚ)

/-- The callback `calculate_rates` of `xdpfilter.c` on the entry `(key, value)` of the
current table, as the blacklist map it leaves.  `it_value` is the remaining time that
`timerfd_gettime` reports for the sample timer. -/
def calculate_rates (env : env) (it_value : timespec) (rec : context) (blacklist : bpf_map)
    (key : Nat) (value : element) : bpf_map :=
  let rate := rate rec it_value key value
  let lost := bpf_map_lookup_elem blacklist key
  let blacklist :=
    if rate > threshold env ∧ lost ≠ 0 then
      bpf_map_update_elem blacklist key BPF_NOEXIST
    else blacklist
  let blacklist :=
    if rate ≤ threshold env ∧ ¬ (lost ≠ 0) then bpf_map_delete_elem blacklist key
    else blacklist
  blacklist

/-- The callback `make_ghost` of `xdpfilter.c` on the entry `(key, value)` of the table
`prev`. -/
def make_ghost (ctx : context) (key : Nat) (value : element) : context :=
  let old_elem := value
  if apr_skiplist_size old_elem.list > 0 then
    let host_addr := key
    let list := apr_skiplist_init
    let new_elem : element := ⟨list, old_elem.dest⟩
    ⟨ctx.prev, apr_hash_set ctx.curr host_addr new_elem⟩
  else ctx

/-- The rotation `swap_hash` of `xdpfilter.c`. -/
def swap_hash (ctx : context) : context :=
  let temp := ctx.prev
  let ctx : context := ⟨ctx.curr, ctx.curr⟩
  let ctx : context := ⟨ctx.prev, temp⟩
  let ctx : context := ⟨ctx.prev, apr_hash_clear ctx.curr⟩
  apr_hash_do make_ghost ctx ctx.prev

/-- The cardinality `size_current`: the size of the port list of `s` in `curr`, 0 when
`s` has no entry. -/
def size_current (ctx : context) (s : Nat) : Nat :=
  match apr_hash_get ctx.curr s with
  | some v => apr_skiplist_size v.list
  | none => 0

/-- The cardinality `size_previous`: the size of the port list of `s` in `prev`, 0 when
`s` has no entry. -/
def size_previous (ctx : context) (s : Nat) : Nat :=
  match apr_hash_get ctx.prev s with
  | some v => apr_skiplist_size v.list
  | none => 0

/-- The port list of `s` in `curr`, empty when `s` has no entry. -/
def ports_current (ctx : context) (s : Nat) : apr_skiplist :=
  match apr_hash_get ctx.curr s with
  | some v => v.list
  | none => []

/-- The records of a drained batch that come from the source `s`. -/
def events_from (s : Nat) (evs : List (event × Nat)) : List (event × Nat) :=
  evs.filter (fun ep => decide (ep.1.host = s))

/-- The keys of a table are pairwise distinct, as in every APR hash table. -/
def keys_nodup (ht : apr_hash) : Prop := (ht.map Prod.fst).Nodup

instance (ht : apr_hash) : Decidable (keys_nodup ht) := by
  unfold keys_nodup; infer_instance

/-- The measure tick of the loop in `main`: `apr_hash_do` runs `calculate_rates` on every
entry of the table `curr`; the callback reads the tables through `rec` and acts on the
blacklist map.  `gettime key` is the remaining time of the sample timer that
`timerfd_gettime` reports inside the call on the entry of `key`. -/
def measure_tick (env : env) (gettime : Nat → timespec) (ctx : context)
    (blacklist : bpf_map) : bpf_map :=
  apr_hash_do (fun bl key value => calculate_rates env (gettime key) ctx bl key value)
    blacklist ctx.curr

/-- The tables of the control plane together with the kernel blacklist map. -/
structure loop_state where
  ctx : context
  blacklist : bpf_map
  deriving DecidableEq, Repr

/-- The descriptor that `epoll_wait` reports ready in the loop of `main`, with what the
dispatch reads from it: the records that `ring_buffer__consume` drains (each with the pad
bytes of its port cell), an expiry of the sample timer, or an expiry of the measure timer
with the remaining times of the sample timer read during the tick. -/
inductive ready where
  | ringbuf_fd (evs : List (event × Nat))
  | sample_fd
  | measure_fd (gettime : Nat → timespec)

/-- One dispatch of the loop in `main`: the ring buffer runs `handle_event` on each
record, the sample timer runs `swap_hash`, the measure timer runs the measure tick. -/
def dispatch (le : Bool) (env : env) (st : loop_state) (r : ready) : loop_state :=
  match r with
  | ready.ringbuf_fd evs => ⟨handle_events le st.ctx evs, st.blacklist⟩
  | ready.sample_fd => ⟨swap_hash st.ctx, st.blacklist⟩
  | ready.measure_fd gettime => ⟨st.ctx, measure_tick env gettime st.ctx st.blacklist⟩

/-- The loop of `main` over a sequence of ready descriptors. -/
def main_loop (le : Bool) (env : env) (st : loop_state) (rs : List ready) : loop_state :=
  rs.foldl (dispatch le env) st

/-- No record of the ready descriptor comes from the source `s`. -/
def silent (s : Nat) (r : ready) : Prop :=
  match r with
  | ready.ringbuf_fd evs => events_from s evs = []
  | ready.sample_fd => True
  | ready.measure_fd _ => True

instance (s : Nat) (r : ready) : Decidable (silent s r) := by
  cases r <;> unfold silent <;> infer_instance


end User

/-! ## Theorems about the packet classifier -/

namespace Bpf

open xdp_action

theorem byte_at_lt (ctx : xdp_md) (off : Nat) : byte_at ctx off < 256 := by
  unfold byte_at; omega

theorem load_u8_data_add (ctx : xdp_md) (off : Nat) :
    load_u8 ctx (ctx.data + off) = byte_at ctx off := by
  simp [load_u8, byte_at]

theorem ntohs_load_u16 (le : Bool) (ctx : xdp_md) (off : Nat) :
    bpf_ntohs le (load_u16 le ctx (ctx.data + off)) = be16_at ctx off := by
  have h0 := byte_at_lt ctx off
  have h1 := byte_at_lt ctx (off + 1)
  cases le <;>
    simp only [bpf_ntohs, load_u16, bswap16, be16_at, Nat.add_assoc, load_u8_data_add,
      if_true, if_false, Bool.false_eq_true] <;> omega

theorem ntohl_load_u32 (le : Bool) (ctx : xdp_md) (off : Nat) :
    bpf_ntohl le (load_u32 le ctx (ctx.data + off)) = be32_at ctx off := by
  have h0 := byte_at_lt ctx off
  have h1 := byte_at_lt ctx (off + 1)
  have h2 := byte_at_lt ctx (off + 2)
  have h3 := byte_at_lt ctx (off + 3)
  cases le <;>
    simp only [bpf_ntohl, load_u32, bswap32, be32_at, Nat.add_assoc, load_u8_data_add,
      if_true, if_false, Bool.false_eq_true] <;> omega

theorem eth_type_test (le : Bool) (ctx : xdp_md) :
    load_u16 le ctx (ctx.data + 12) = bpf_ntohs le ETH_P_IPV6 ↔ ether_type ctx = 0x86DD := by
  have h0 := byte_at_lt ctx 12
  have h1 := byte_at_lt ctx (12 + 1)
  cases le
  · simp only [bpf_ntohs, load_u16, be16_at, ether_type, ETH_P_IPV6, Nat.add_assoc,
      load_u8_data_add, if_false, Bool.false_eq_true]
  · simp only [bpf_ntohs, load_u16, bswap16, be16_at, ether_type, ETH_P_IPV6, Nat.add_assoc,
      load_u8_data_add, if_true]
    omega

theorem xdp_prog_simple_eq (le : Bool) (blacklist : bpf_map) (reserve_ok : Bool) (ctx : xdp_md) :
    xdp_prog_simple le blacklist reserve_ok ctx =
      if ctx.pkt.length < 14 then (XDP_DROP, [])
      else if ether_type ctx = 0x86DD then (XDP_PASS, [])
      else if ctx.pkt.length < 14 + 20 then (XDP_DROP, [])
      else if ctx.data + ctx.pkt.length < tcp_off ctx then (XDP_DROP, [])
      else if ctx.pkt.length < tcp_off ctx + 20 then (XDP_DROP, [])
      else if tcp_syn ctx = true ∧ tcp_ack ctx = false ∧ reserve_ok = true then
        (XDP_PASS, [syn_event ctx])
      else (XDP_PASS, []) := by
  have hb := byte_at_lt ctx 14
  have hf := byte_at_lt ctx (tcp_off ctx + 13)
  have hihl : (byte_at ctx 14 % 16 * 4) % 256 = ihl ctx * 4 := by unfold ihl; omega
  have ht : sizeof_ethhdr + ihl ctx * 4 = tcp_off ctx := rfl
  simp only [xdp_prog_simple, xdp_md.data_end, sizeof_ethhdr, sizeof_iphdr, sizeof_tcphdr, eth_type_test, Nat.add_assoc,
    load_u8_data_add, ntohl_load_u32, ntohs_load_u16]
  rw [hihl]
  have a13 : 14 + (ihl ctx * 4 + 13) = tcp_off ctx + 13 := by unfold tcp_off; omega
  have a2 : 14 + (ihl ctx * 4 + 2) = tcp_off ctx + 2 := by unfold tcp_off; omega
  have a20 : 14 + (ihl ctx * 4 + 20) = tcp_off ctx + 20 := by unfold tcp_off; omega
  have a0 : 14 + ihl ctx * 4 = tcp_off ctx := rfl
  rw [a13, a2, a20, a0]
  have hsyn : (byte_at ctx (tcp_off ctx + 13) / 2 % 2 ≠ 0) ↔ tcp_syn ctx = true := by
    unfold tcp_syn; simp only [decide_eq_true_eq]; omega
  have hack : (byte_at ctx (tcp_off ctx + 13) / 16 % 2 ≠ 0) ↔ ¬ (tcp_ack ctx = false) := by
    unfold tcp_ack; simp only [decide_eq_false_iff_not]; omega
  simp only [hsyn, hack]
  have hev : (⟨be32_at ctx (14 + 12), be32_at ctx (14 + 16), be16_at ctx (tcp_off ctx + 2)⟩ : event)
      = syn_event ctx := rfl
  simp only [hev]
  by_cases h1 : ctx.pkt.length < 14
  · have : ctx.data + 14 > ctx.data + ctx.pkt.length := by omega
    simp only [this, h1, if_true]
  have h1' : ¬ (ctx.data + 14 > ctx.data + ctx.pkt.length) := by omega
  simp only [h1, h1', if_false]
  by_cases h2 : ether_type ctx = 34525
  · simp only [h2, if_true]
  simp only [h2, if_false]
  by_cases h3 : ctx.pkt.length < 14 + 20
  · have : ctx.data + (14 + 20) > ctx.data + ctx.pkt.length := by omega
    simp only [this, h3, if_true]
  have h3' : ¬ (ctx.data + (14 + 20) > ctx.data + ctx.pkt.length) := by omega
  simp only [h3, h3', if_false]
  by_cases h4 : ctx.data + ctx.pkt.length < tcp_off ctx
  · have : tcp_off ctx > ctx.data + ctx.pkt.length := h4
    simp only [this, h4, if_true]
  have h4' : ¬ (tcp_off ctx > ctx.data + ctx.pkt.length) := h4
  simp only [h4, h4', if_false]
  by_cases h5 : ctx.pkt.length < tcp_off ctx + 20
  · have : ctx.data + (tcp_off ctx + 20) > ctx.data + ctx.pkt.length := by omega
    simp only [this, h5, if_true]
  have h5' : ¬ (ctx.data + (tcp_off ctx + 20) > ctx.data + ctx.pkt.length) := by omega
  simp only [h5, h5', if_false]
  cases reserve_ok <;> by_cases hs : tcp_syn ctx = true <;> by_cases ha : tcp_ack ctx = false <;>
    simp [hs, ha]

/-- C1 (the code departs from the claim): a frame from the blacklisted source `10.0.0.1`
that passes every bounds check, be it a SYN (flag byte `0x02`) or a plain ACK segment
(flag byte `0x10`), gets the verdict `XDP_PASS`, on either byte order, at every address
and whether or not the ring buffer has room: the verdict `XDP_DROP` computed from the
lookup is never returned. -/
theorem C1_blacklisted_source_is_passed :
    passes_checks ⟨0, frame 0x08 0x00 6 0x10⟩ ∧
    ip_saddr ⟨0, frame 0x08 0x00 6 0x10⟩ = 0x0A000001 ∧
    tcp_syn ⟨0, frame 0x08 0x00 6 0x10⟩ = false ∧
    ∀ (le reserve_ok : Bool) (data : Nat),
      xdp_prog_simple le [0x0A000001] reserve_ok ⟨data, frame 0x08 0x00 6 0x10⟩
        = (XDP_PASS, []) ∧
      xdp_prog_simple le [0x0A000001] true ⟨data, frame 0x08 0x00 6 0x02⟩
        = (XDP_PASS, [⟨0x0A000001, 0xC0A80101, 80⟩]) := by
  refine ⟨by decide, by decide, by decide, ?_⟩
  intro le reserve_ok data
  have e1 : (⟨data, frame 0x08 0x00 6 0x10⟩ : xdp_md).pkt.length = 54 := rfl
  have e2 : (⟨data, frame 0x08 0x00 6 0x02⟩ : xdp_md).pkt.length = 54 := rfl
  have t1 : tcp_off ⟨data, frame 0x08 0x00 6 0x10⟩ = 34 :=
    (by decide : tcp_off ⟨0, frame 0x08 0x00 6 0x10⟩ = 34)
  have t2 : tcp_off ⟨data, frame 0x08 0x00 6 0x02⟩ = 34 :=
    (by decide : tcp_off ⟨0, frame 0x08 0x00 6 0x02⟩ = 34)
  have y1 : ether_type ⟨data, frame 0x08 0x00 6 0x10⟩ = 0x0800 := rfl
  have y2 : ether_type ⟨data, frame 0x08 0x00 6 0x02⟩ = 0x0800 := rfl
  have s1 : tcp_syn ⟨data, frame 0x08 0x00 6 0x10⟩ = false :=
    (by decide : tcp_syn ⟨0, frame 0x08 0x00 6 0x10⟩ = false)
  have s2 : tcp_syn ⟨data, frame 0x08 0x00 6 0x02⟩ = true :=
    (by decide : tcp_syn ⟨0, frame 0x08 0x00 6 0x02⟩ = true)
  have a2 : tcp_ack ⟨data, frame 0x08 0x00 6 0x02⟩ = false :=
    (by decide : tcp_ack ⟨0, frame 0x08 0x00 6 0x02⟩ = false)
  have v2 : syn_event ⟨data, frame 0x08 0x00 6 0x02⟩ = ⟨0x0A000001, 0xC0A80101, 80⟩ :=
    (by decide : syn_event ⟨0, frame 0x08 0x00 6 0x02⟩ = ⟨0x0A000001, 0xC0A80101, 80⟩)
  constructor
  · rw [xdp_prog_simple_eq, e1, t1, y1, s1]
    have : ¬ (data + 54 < 34) := by omega
    simp [this]
  · rw [xdp_prog_simple_eq, e2, t2, y2, s2, a2, v2]
    have : ¬ (data + 54 < 34) := by omega
    simp [this]

/-- C2: for a frame that passes the bounds checks with a non-IPv6 EtherType, whatever the
blacklist holds, the records submitted are exactly the one record
`(ntohl saddr, ntohl daddr, ntohs dest)` when SYN = 1, ACK = 0 and the reservation
succeeds, and none otherwise; when the reservation of a SYN fails the verdict is
`XDP_PASS`. -/
theorem C2_events_submitted (le : Bool) (blacklist : bpf_map) (reserve_ok : Bool)
    (ctx : xdp_md) (h : passes_checks ctx) :
    (xdp_prog_simple le blacklist reserve_ok ctx).2 =
        (if tcp_syn ctx = true ∧ tcp_ack ctx = false ∧ reserve_ok = true then
          [(⟨ip_saddr ctx, ip_daddr ctx, tcp_dport ctx⟩ : event)]
        else []) ∧
      (tcp_syn ctx = true → tcp_ack ctx = false → reserve_ok = false →
        (xdp_prog_simple le blacklist reserve_ok ctx).1 = XDP_PASS) := by
  obtain ⟨h1, h2, h3, h4⟩ := h
  have n1 : ¬ ctx.pkt.length < 14 := by omega
  have n3 : ¬ ctx.pkt.length < 14 + 20 := by omega
  have n4 : ¬ ctx.data + ctx.pkt.length < tcp_off ctx := by omega
  have n5 : ¬ ctx.pkt.length < tcp_off ctx + 20 := by omega
  rw [xdp_prog_simple_eq]
  simp only [n1, h2, n3, n4, n5, if_false]
  constructor
  · split <;> rfl
  · intro _ _ hr
    simp [hr]

/-- The theorem `C2_events_submitted` at a 54-byte SYN frame from `10.0.0.1` to
`192.168.1.1`, port 80. -/
theorem C2_events_submitted_witness :
    passes_checks ⟨4096, frame 0x08 0x00 6 0x02⟩ ∧
    (xdp_prog_simple true [] true ⟨4096, frame 0x08 0x00 6 0x02⟩).2 =
      [⟨0x0A000001, 0xC0A80101, 80⟩] :=
  ⟨by decide,
   (C2_events_submitted true [] true ⟨4096, frame 0x08 0x00 6 0x02⟩ (by decide)).1.trans
     (by decide)⟩

/-- C3: a truncated frame is dropped and submits no record: a frame below 14 bytes, or a
non-IPv6 frame below `14 + 20` bytes, or a non-IPv6 frame below `14 + IHL * 4 + 20`
bytes, whatever the blacklist, the byte order and the state of the ring buffer. -/
theorem C3_truncated_is_dropped (le : Bool) (blacklist : bpf_map) (reserve_ok : Bool)
    (ctx : xdp_md)
    (h : ctx.pkt.length < 14 ∨
      (ether_type ctx ≠ 0x86DD ∧ ctx.pkt.length < 14 + 20) ∨
      (ether_type ctx ≠ 0x86DD ∧ ctx.pkt.length < 14 + ihl ctx * 4 + 20)) :
    xdp_prog_simple le blacklist reserve_ok ctx = (XDP_DROP, []) := by
  rw [xdp_prog_simple_eq]
  by_cases h1 : ctx.pkt.length < 14
  · simp only [h1, if_true]
  have he : ether_type ctx ≠ 0x86DD := by
    rcases h with h | h | h
    · exact absurd h h1
    · exact h.1
    · exact h.1
  simp only [h1, he, if_false]
  by_cases h3 : ctx.pkt.length < 14 + 20
  · simp only [h3, if_true]
  simp only [h3, if_false]
  by_cases h4 : ctx.data + ctx.pkt.length < tcp_off ctx
  · simp only [h4, if_true]
  simp only [h4, if_false]
  have h5 : ctx.pkt.length < tcp_off ctx + 20 := by
    rcases h with h | h | h
    · exact absurd h h1
    · exact absurd h.2 h3
    · exact h.2
  simp only [h5, if_true]

/-- The theorem `C3_truncated_is_dropped` at the SYN frame cut to 53 bytes, one byte short
of its TCP header. -/
theorem C3_truncated_is_dropped_witness :
    ((frame 0x08 0x00 6 0x02).take 53).length < 14 + ihl ⟨4096, (frame 0x08 0x00 6 0x02).take 53⟩
      * 4 + 20 ∧
    xdp_prog_simple true [] true ⟨4096, (frame 0x08 0x00 6 0x02).take 53⟩ = (XDP_DROP, []) :=
  ⟨by decide,
   C3_truncated_is_dropped true [] true ⟨4096, (frame 0x08 0x00 6 0x02).take 53⟩
     (Or.inr (Or.inr ⟨by decide, by decide⟩))⟩

/-- C4 (the code departs from the claim): a frame whose EtherType is ARP (`0x0806`), and
an IPv4 frame whose protocol field is UDP (17), each with the bit pattern `0x02` at the
offset where a TCP header would keep its flags, make `xdp_prog_simple` submit a record:
the program tests neither the EtherType for IPv4 nor the protocol field for TCP. -/
theorem C4_event_without_ipv4_tcp :
    ether_type ⟨0, frame 0x08 0x06 6 0x02⟩ ≠ 0x0800 ∧
    ip_protocol ⟨0, frame 0x08 0x00 17 0x02⟩ ≠ 6 ∧
    ∀ (le : Bool) (blacklist : bpf_map) (data : Nat),
      (xdp_prog_simple le blacklist true ⟨data, frame 0x08 0x06 6 0x02⟩).2
        = [⟨0x0A000001, 0xC0A80101, 80⟩] ∧
      (xdp_prog_simple le blacklist true ⟨data, frame 0x08 0x00 17 0x02⟩).2
        = [⟨0x0A000001, 0xC0A80101, 80⟩] := by
  refine ⟨by decide, by decide, ?_⟩
  intro le blacklist data
  have e1 : (⟨data, frame 0x08 0x06 6 0x02⟩ : xdp_md).pkt.length = 54 := rfl
  have e2 : (⟨data, frame 0x08 0x00 17 0x02⟩ : xdp_md).pkt.length = 54 := rfl
  have t1 : tcp_off ⟨data, frame 0x08 0x06 6 0x02⟩ = 34 :=
    (by decide : tcp_off ⟨0, frame 0x08 0x06 6 0x02⟩ = 34)
  have t2 : tcp_off ⟨data, frame 0x08 0x00 17 0x02⟩ = 34 :=
    (by decide : tcp_off ⟨0, frame 0x08 0x00 17 0x02⟩ = 34)
  have y1 : ether_type ⟨data, frame 0x08 0x06 6 0x02⟩ = 0x0806 := rfl
  have y2 : ether_type ⟨data, frame 0x08 0x00 17 0x02⟩ = 0x0800 := rfl
  have s1 : tcp_syn ⟨data, frame 0x08 0x06 6 0x02⟩ = true :=
    (by decide : tcp_syn ⟨0, frame 0x08 0x06 6 0x02⟩ = true)
  have s2 : tcp_syn ⟨data, frame 0x08 0x00 17 0x02⟩ = true :=
    (by decide : tcp_syn ⟨0, frame 0x08 0x00 17 0x02⟩ = true)
  have a1 : tcp_ack ⟨data, frame 0x08 0x06 6 0x02⟩ = false :=
    (by decide : tcp_ack ⟨0, frame 0x08 0x06 6 0x02⟩ = false)
  have a2 : tcp_ack ⟨data, frame 0x08 0x00 17 0x02⟩ = false :=
    (by decide : tcp_ack ⟨0, frame 0x08 0x00 17 0x02⟩ = false)
  have v1 : syn_event ⟨data, frame 0x08 0x06 6 0x02⟩ = ⟨0x0A000001, 0xC0A80101, 80⟩ :=
    (by decide : syn_event ⟨0, frame 0x08 0x06 6 0x02⟩ = ⟨0x0A000001, 0xC0A80101, 80⟩)
  have v2 : syn_event ⟨data, frame 0x08 0x00 17 0x02⟩ = ⟨0x0A000001, 0xC0A80101, 80⟩ :=
    (by decide : syn_event ⟨0, frame 0x08 0x00 17 0x02⟩ = ⟨0x0A000001, 0xC0A80101, 80⟩)
  have : ¬ (data + 54 < 34) := by omega
  constructor
  · rw [xdp_prog_simple_eq, e1, t1, y1, s1, a1, v1]
    simp [this]
  · rw [xdp_prog_simple_eq, e2, t2, y2, s2, a2, v2]
    simp [this]

/-- C10: a frame of at least 14 bytes whose EtherType is IPv6 (bytes `0x86 0xDD`) is
passed and submits no record, whatever the blacklist and the remaining bytes hold. -/
theorem C10_ipv6_is_passed (le : Bool) (blacklist : bpf_map) (reserve_ok : Bool)
    (ctx : xdp_md) (hlen : 14 ≤ ctx.pkt.length) (h6 : ether_type ctx = 0x86DD) :
    xdp_prog_simple le blacklist reserve_ok ctx = (XDP_PASS, []) := by
  rw [xdp_prog_simple_eq]
  have n1 : ¬ ctx.pkt.length < 14 := by omega
  simp only [n1, h6, if_false, if_true]

/-- The theorem `C10_ipv6_is_passed` at a 54-byte frame with EtherType `0x86DD` whose
source bytes are blacklisted and whose flag byte reads as a SYN. -/
theorem C10_ipv6_is_passed_witness :
    14 ≤ (frame 0x86 0xDD 6 0x02).length ∧ ether_type ⟨4096, frame 0x86 0xDD 6 0x02⟩ = 0x86DD ∧
    xdp_prog_simple true [0x0A000001] true ⟨4096, frame 0x86 0xDD 6 0x02⟩ = (XDP_PASS, []) :=
  ⟨by decide, by decide,
   C10_ipv6_is_passed true [0x0A000001] true ⟨4096, frame 0x86 0xDD 6 0x02⟩ (by decide)
     (by decide)⟩

end Bpf

/-! ## Theorems about the rate engine -/

namespace User

theorem round_nearest_even_intCast (z : ℤ) : round_nearest_even (z : ℚ) = z := by
  unfold round_nearest_even
  simp

theorem int_log_two_eq (r : ℚ) (e : ℤ) (hr : 0 < r) (h1 : (2 : ℚ) ^ e ≤ r)
    (h2 : r < (2 : ℚ) ^ (e + 1)) : Int.log 2 r = e := by
  have hb : 1 < 2 := by decide
  have l1 : e ≤ Int.log 2 r := by
    rw [← Int.zpow_le_iff_le_log hb hr]
    exact_mod_cast h1
  have l2 : Int.log 2 r < e + 1 := by
    rw [← Int.lt_zpow_iff_log_lt hb hr]
    exact_mod_cast h2
  omega

/-- A value `m * 2 ^ k` whose integer `m` fits in 53 bits is a `double`: rounding leaves
it as it is. -/
theorem to_double_exact (m k : ℤ) (hm : |m| < 2 ^ 53) :
    to_double ((m : ℚ) * 2 ^ k) = (m : ℚ) * 2 ^ k := by
  by_cases hm0 : m = 0
  · simp [to_double, hm0]
  have h2k : (0 : ℚ) < 2 ^ k := zpow_pos (by norm_num) k
  have hq0 : (m : ℚ) * 2 ^ k ≠ 0 :=
    mul_ne_zero (by exact_mod_cast hm0) (ne_of_gt h2k)
  have hna : m.natAbs ≠ 0 := Int.natAbs_ne_zero.mpr hm0
  have hlt : m.natAbs < 2 ^ 53 := by
    have : (m.natAbs : ℤ) < 2 ^ 53 := by rw [Int.natCast_natAbs]; exact hm
    exact_mod_cast this
  have ha1 : 2 ^ Nat.log 2 m.natAbs ≤ m.natAbs := Nat.pow_log_le_self 2 hna
  have ha2 : m.natAbs < 2 ^ (Nat.log 2 m.natAbs + 1) :=
    Nat.lt_pow_succ_log_self (by decide) _
  have ha3 : Nat.log 2 m.natAbs < 53 := Nat.log_lt_of_lt_pow hna hlt
  obtain ⟨d, hd⟩ : ∃ d : ℕ, Nat.log 2 m.natAbs + d = 52 := ⟨52 - Nat.log 2 m.natAbs, by omega⟩
  have habs : |(m : ℚ) * 2 ^ k| = (m.natAbs : ℚ) * 2 ^ k := by
    rw [abs_mul, abs_of_pos h2k, Nat.cast_natAbs, Int.cast_abs]
  have hlog : Int.log 2 |(m : ℚ) * 2 ^ k| = (Nat.log 2 m.natAbs : ℤ) + k := by
    apply int_log_two_eq
    · rw [habs]; exact mul_pos (by exact_mod_cast Nat.pos_of_ne_zero hna) h2k
    · rw [habs, zpow_add₀ (by norm_num : (2 : ℚ) ≠ 0), zpow_natCast]
      exact mul_le_mul_of_nonneg_right (by exact_mod_cast ha1) (le_of_lt h2k)
    · rw [habs, add_right_comm, zpow_add₀ (by norm_num : (2 : ℚ) ≠ 0)]
      apply mul_lt_mul_of_pos_right _ h2k
      have : ((Nat.log 2 m.natAbs : ℤ) + 1) = ((Nat.log 2 m.natAbs + 1 : ℕ) : ℤ) := by
        push_cast; rfl
      rw [this, zpow_natCast]
      exact_mod_cast ha2
  have hexp : (Nat.log 2 m.natAbs : ℤ) + k - 52 = k - (d : ℤ) := by omega
  have hdiv : (m : ℚ) * 2 ^ k / 2 ^ (k - (d : ℤ)) = ((m * 2 ^ d : ℤ) : ℚ) := by
    rw [zpow_sub₀ (by norm_num : (2 : ℚ) ≠ 0), zpow_natCast]
    push_cast
    field_simp
    ring
  unfold to_double
  simp only [hq0, if_false, hlog, hexp, hdiv, round_nearest_even_intCast]
  rw [zpow_sub₀ (by norm_num : (2 : ℚ) ≠ 0), zpow_natCast]
  push_cast
  field_simp
  ring

theorem to_double_intCast (m : ℤ) (hm : |m| < 2 ^ 53) : to_double (m : ℚ) = m := by
  have := to_double_exact m 0 hm
  simpa using this

theorem to_double_natCast (n : ℕ) (hn : n < 2 ^ 53) : to_double (n : ℚ) = n := by
  have := to_double_intCast (n : ℤ)
    (by rw [abs_of_nonneg (Int.natCast_nonneg n)]; exact_mod_cast hn)
  simpa using this

theorem threshold_eq (env : env) (h : |env.num_packets| < 2 ^ 53) :
    threshold env = (env.num_packets : ℚ) :=
  to_double_intCast env.num_packets h

theorem threshold_env_default : threshold env_default = 3 := by
  rw [threshold_eq env_default (by decide)]
  rfl

theorem to_double_zero : to_double 0 = 0 := by
  simp [to_double]

/-- For a source without an entry in `prev` the product is `0 * weight = 0` and the sum is
the `unsigned int` count of the current list, both without rounding. -/
theorem rate_of_absent_prev (rec : context) (it_value : timespec) (key : Nat)
    (value : element) (h : apr_hash_get rec.prev key = none) :
    rate rec it_value key value
      = ((apr_skiplist_size value.list % 4294967296 : ℕ) : ℚ) := by
  have hlt : apr_skiplist_size value.list % 4294967296 < 2 ^ 53 :=
    lt_trans (Nat.mod_lt _ (by norm_num)) (by norm_num)
  unfold rate
  simp only [h, Nat.cast_zero, zero_mul, to_double_zero, zero_add]
  exact to_double_natCast _ hlt

theorem round_nearest_even_eq (x : ℚ) (z : ℤ) (h1 : (z : ℚ) - 1 / 2 < x)
    (h2 : x < (z : ℚ) + 1 / 2) : round_nearest_even x = z := by
  unfold round_nearest_even
  by_cases hx : (z : ℚ) ≤ x
  · have hf : ⌊x⌋ = z := by
      rw [Int.floor_eq_iff]
      constructor
      · exact hx
      · linarith
    simp only [hf]
    have : x - (z : ℚ) < 1 / 2 := by linarith
    simp only [this, if_true]
  · have hx' : x < (z : ℚ) := not_le.mp hx
    have hf : ⌊x⌋ = z - 1 := by
      rw [Int.floor_eq_iff]
      push_cast
      constructor
      · linarith
      · linarith
    simp only [hf]
    push_cast
    have n1 : ¬ (x - ((z : ℚ) - 1) < 1 / 2) := by
      intro h; linarith
    have n2 : (1 : ℚ) / 2 < x - ((z : ℚ) - 1) := by linarith
    simp only [n1, n2, if_true, if_false]
    ring

/-- The rounding of a positive `q` in the binade of `2 ^ e` whose scaled value lies
within half a unit of the integer `z`. -/
theorem to_double_of_near (q : ℚ) (e z : ℤ) (h1 : (2 : ℚ) ^ e ≤ q)
    (h2 : q < (2 : ℚ) ^ (e + 1)) (hz1 : (z : ℚ) - 1 / 2 < q / 2 ^ (e - 52))
    (hz2 : q / 2 ^ (e - 52) < (z : ℚ) + 1 / 2) :
    to_double q = (z : ℚ) * 2 ^ (e - 52) := by
  have hq : 0 < q := lt_of_lt_of_le (zpow_pos (by norm_num) e) h1
  have hlog : Int.log 2 |q| = e := by
    rw [abs_of_pos hq]
    exact int_log_two_eq q e hq h1 h2
  unfold to_double
  simp only [ne_of_gt hq, if_false, hlog, round_nearest_even_eq _ z hz1 hz2]

/-- With 31 seconds left the weight is the `double` nearest to `31 / 60`, which lies
above `31 / 60`. -/
theorem weight_thirty_one : weight ⟨31, 0⟩ = 4653719614949513 / 9007199254740992 := by
  have h31 : to_double (31 : ℚ) = 31 := by
    simpa using to_double_natCast 31 (by norm_num)
  have h := to_double_of_near (31 / 60) (-1) 4653719614949513 (by norm_num) (by norm_num)
    (by norm_num) (by norm_num)
  unfold weight
  simp only [Int.cast_ofNat, h31]
  rw [h]
  norm_num

/-- With 60 ports in the previous window, none in the current one and 31 seconds left the
rate is `31 + 2 ^ (-48)`, the `double` the source prints as `31.000000000000004`. -/
theorem rate_sixty_thirty_one (rec : context) (key : Nat) (value : element) (v : element)
    (hp : apr_hash_get rec.prev key = some v) (hv : apr_skiplist_size v.list = 60)
    (hc : apr_skiplist_size value.list = 0) :
    rate rec ⟨31, 0⟩ key value = 31 + 1 / 281474976710656 := by
  have h1 := to_double_of_near (60 * (4653719614949513 / 9007199254740992)) 4
    8725724278030337 (by norm_num) (by norm_num) (by norm_num) (by norm_num)
  have h2 := to_double_exact 8725724278030337 (-48) (by norm_num)
  unfold rate
  simp only [hp, hv, hc, weight_thirty_one]
  norm_num at h1 h2 ⊢
  rw [h1]
  norm_num
  norm_num at h2
  exact h2

theorem mem_bpf_map_update_elem (m : bpf_map) (key flags a : Nat) :
    a ∈ bpf_map_update_elem m key flags ↔
      a ∈ m ∨ (a = key ∧ key ∉ m ∧ flags ≠ BPF_EXIST ∧ m.length < max_entries) := by
  unfold bpf_map_update_elem
  by_cases h1 : key ∈ m
  · simp [h1]
  by_cases h2 : flags = BPF_EXIST
  · simp [h1, h2]
  by_cases h3 : m.length ≥ max_entries
  · have : ¬ m.length < max_entries := by omega
    simp [h1, h2, h3, this]
  · have : m.length < max_entries := by omega
    simp only [h1, h2, h3, if_false, List.mem_cons]
    constructor
    · rintro (h | h)
      · exact Or.inr ⟨h, not_false, h2, this⟩
      · exact Or.inl h
    · rintro (h | ⟨h, -⟩)
      · exact Or.inr h
      · exact Or.inl h

theorem mem_bpf_map_delete_elem (m : bpf_map) (key a : Nat) :
    a ∈ bpf_map_delete_elem m key ↔ a ∈ m ∧ a ≠ key := by
  simp [bpf_map_delete_elem]

theorem calculate_rates_eq (env : env) (it_value : timespec) (rec : context)
    (blacklist : bpf_map) (key : Nat) (value : element) :
    calculate_rates env it_value rec blacklist key value =
      if rate rec it_value key value > threshold env then
        (if key ∈ blacklist then blacklist
         else bpf_map_update_elem blacklist key BPF_NOEXIST)
      else
        (if key ∈ blacklist then bpf_map_delete_elem blacklist key else blacklist) := by
  unfold calculate_rates bpf_map_lookup_elem
  by_cases hr : rate rec it_value key value > threshold env
  · have hr' : ¬ rate rec it_value key value ≤ threshold env := not_le.mpr hr
    by_cases hm : key ∈ blacklist <;> simp [hr, hr', hm]
  · have hr' : rate rec it_value key value ≤ threshold env := not_lt.mp hr
    by_cases hm : key ∈ blacklist <;> simp [hr, hr', hm]

/-- C5: the transitions of `calculate_rates` on a visited source `s` with the rate it
computes, a `double`, compared as the source compares it with `num_packets` (converted to
`double`, which leaves every setting below `2 ^ 53` as it is): above `num_packets` and
not blacklisted, `s` is inserted (the `BPF_NOEXIST` update); at most `num_packets` and
blacklisted, `s` is removed; in the two other cases the map is left as it is.  So when
the map has room, `s` is blacklisted after the call exactly when the rate exceeds
`num_packets`, and no other address changes its membership. -/
theorem C5_blacklist_transitions (env : env) (it_value : timespec) (rec : context)
    (blacklist : bpf_map) (s : Nat) (value : element) :
    (rate rec it_value s value > threshold env → s ∉ blacklist →
        calculate_rates env it_value rec blacklist s value
          = bpf_map_update_elem blacklist s BPF_NOEXIST ∧
        (blacklist.length < max_entries →
          s ∈ calculate_rates env it_value rec blacklist s value)) ∧
    (rate rec it_value s value ≤ threshold env → s ∈ blacklist →
        calculate_rates env it_value rec blacklist s value
          = bpf_map_delete_elem blacklist s ∧
        s ∉ calculate_rates env it_value rec blacklist s value) ∧
    (¬ (rate rec it_value s value > threshold env ∧ s ∉ blacklist) →
      ¬ (rate rec it_value s value ≤ threshold env ∧ s ∈ blacklist) →
        calculate_rates env it_value rec blacklist s value = blacklist) ∧
    (blacklist.length < max_entries →
      (s ∈ calculate_rates env it_value rec blacklist s value ↔
        rate rec it_value s value > threshold env)) ∧
    (∀ a : Nat, a ≠ s →
      (a ∈ calculate_rates env it_value rec blacklist s value ↔ a ∈ blacklist)) ∧
    (|env.num_packets| < 2 ^ 53 → threshold env = (env.num_packets : ℚ)) := by
  rw [calculate_rates_eq]
  refine ⟨?_, ?_, ?_, ?_, ?_, threshold_eq env⟩
  · intro hr hm
    simp only [hr, hm, if_true, if_false, true_and]
    intro hroom
    rw [mem_bpf_map_update_elem]
    exact Or.inr ⟨rfl, hm, by decide, hroom⟩
  · intro hr hm
    have hr' : ¬ rate rec it_value s value > threshold env := not_lt.mpr hr
    simp only [hr', hm, if_true, if_false, true_and]
    rw [mem_bpf_map_delete_elem]
    exact fun h => h.2 rfl
  · intro h1 h2
    by_cases hr : rate rec it_value s value > threshold env
    · have hm : s ∈ blacklist := by
        by_contra hm
        exact h1 ⟨hr, hm⟩
      simp only [hr, hm, if_true]
    · have hm : s ∉ blacklist := fun hm => h2 ⟨not_lt.mp hr, hm⟩
      simp only [hr, hm, if_false]
  · intro hroom
    by_cases hr : rate rec it_value s value > threshold env <;>
      by_cases hm : s ∈ blacklist <;>
      simp [hr, hm, mem_bpf_map_update_elem, mem_bpf_map_delete_elem, hroom, BPF_NOEXIST,
        BPF_EXIST]
  · intro a ha
    by_cases hr : rate rec it_value s value > threshold env <;>
      by_cases hm : s ∈ blacklist <;>
      simp [hr, hm, mem_bpf_map_update_elem, mem_bpf_map_delete_elem, ha]

/-- The theorem `C5_blacklist_transitions` at a source with 60 ports in the previous
window and a ghost entry in the current one, 31 seconds left on the sample timer and
`num_packets = 31`: the rate is `31 + 2 ^ (-48)`, above the threshold although
`60 * 31 / 60 = 31`, and the source is inserted into the empty blacklist. -/
theorem C5_blacklist_transitions_witness :
    rate ⟨[(1, ⟨(List.range 60).map (fun p => ⟨p, 0⟩), 5⟩)], [(1, ⟨[], 5⟩)]⟩ ⟨31, 0⟩ 1
        ⟨[], 5⟩ > threshold ⟨31, 60⟩ ∧
      (1 : Nat) ∉ ([] : bpf_map) ∧
      1 ∈ calculate_rates ⟨31, 60⟩ ⟨31, 0⟩
        ⟨[(1, ⟨(List.range 60).map (fun p => ⟨p, 0⟩), 5⟩)], [(1, ⟨[], 5⟩)]⟩ [] 1 ⟨[], 5⟩ :=
  have hr : rate ⟨[(1, ⟨(List.range 60).map (fun p => ⟨p, 0⟩), 5⟩)], [(1, ⟨[], 5⟩)]⟩
      ⟨31, 0⟩ 1 ⟨[], 5⟩ > threshold ⟨31, 60⟩ := by
    rw [rate_sixty_thirty_one _ 1 ⟨[], 5⟩ ⟨(List.range 60).map (fun p => ⟨p, 0⟩), 5⟩
        (by simp [apr_hash_get]) (by simp [apr_skiplist_size]) rfl,
      threshold_eq ⟨31, 60⟩ (by decide)]
    norm_num
  ⟨hr, by simp,
   ((C5_blacklist_transitions ⟨31, 60⟩ ⟨31, 0⟩
      ⟨[(1, ⟨(List.range 60).map (fun p => ⟨p, 0⟩), 5⟩)], [(1, ⟨[], 5⟩)]⟩ [] 1
      ⟨[], 5⟩).1 hr (by simp)).2 (by decide)⟩

theorem apr_hash_get_set (ht : apr_hash) (key : Nat) (val : element) (k : Nat) :
    apr_hash_get (apr_hash_set ht key val) k
      = if k = key then some val else apr_hash_get ht k := by
  induction ht with
  | nil =>
    by_cases h : k = key
    · simp [apr_hash_set, apr_hash_get, h]
    · have h' : ¬ key = k := fun e => h e.symm
      simp [apr_hash_set, apr_hash_get, h, h']
  | cons hd tl ih =>
    obtain ⟨k0, v0⟩ := hd
    by_cases h0 : k0 = key
    · subst h0
      by_cases h : k = k0
      · subst h
        simp [apr_hash_set, apr_hash_get]
      · have h' : ¬ k0 = k := fun e => h e.symm
        simp [apr_hash_set, apr_hash_get, h, h']
    · by_cases h : k = key
      · subst h
        simp [apr_hash_set, apr_hash_get, h0, ih]
      · by_cases h1 : k0 = k
        · simp [apr_hash_set, apr_hash_get, h0, h, h1]
        · simp [apr_hash_set, apr_hash_get, h0, h, h1, ih]

theorem apr_hash_get_eq_none (ht : apr_hash) (k : Nat) :
    apr_hash_get ht k = none ↔ k ∉ ht.map Prod.fst := by
  induction ht with
  | nil => simp [apr_hash_get]
  | cons hd tl ih =>
    obtain ⟨k0, v0⟩ := hd
    by_cases h : k0 = k
    · simp [apr_hash_get, h]
    · have h' : ¬ k = k0 := fun e => h e.symm
      simp only [apr_hash_get, h, if_false, ih, List.map_cons, List.mem_cons, h', false_or]

theorem keys_apr_hash_set (ht : apr_hash) (key : Nat) (val : element) :
    (apr_hash_set ht key val).map Prod.fst
      = if key ∈ ht.map Prod.fst then ht.map Prod.fst else ht.map Prod.fst ++ [key] := by
  induction ht with
  | nil => simp [apr_hash_set]
  | cons hd tl ih =>
    obtain ⟨k0, v0⟩ := hd
    by_cases h0 : k0 = key
    · simp [apr_hash_set, h0]
    · have h0' : ¬ key = k0 := fun e => h0 e.symm
      simp only [apr_hash_set, h0, if_false, List.map_cons, ih, List.mem_cons, h0', false_or]
      split <;> simp

theorem keys_nodup_apr_hash_set (ht : apr_hash) (key : Nat) (val : element)
    (h : keys_nodup ht) : keys_nodup (apr_hash_set ht key val) := by
  unfold keys_nodup at *
  rw [keys_apr_hash_set]
  split
  · exact h
  · rename_i hk
    rw [List.nodup_append]
    refine ⟨h, List.nodup_singleton key, ?_⟩
    intro a ha hb
    rw [List.mem_singleton] at hb
    exact hk (hb ▸ ha)

theorem make_ghost_eq (ctx : context) (key : Nat) (value : element) :
    make_ghost ctx key value =
      if apr_skiplist_size value.list > 0 then
        ⟨ctx.prev, apr_hash_set ctx.curr key ⟨apr_skiplist_init, value.dest⟩⟩
      else ctx := rfl

theorem make_ghost_prev (ctx : context) (key : Nat) (value : element) :
    (make_ghost ctx key value).prev = ctx.prev := by
  rw [make_ghost_eq]
  split <;> rfl

theorem apr_hash_do_make_ghost_prev (l : apr_hash) (ctx : context) :
    (apr_hash_do make_ghost ctx l).prev = ctx.prev := by
  induction l generalizing ctx with
  | nil => rfl
  | cons hd tl ih =>
    have := ih (make_ghost ctx hd.1 hd.2)
    simp only [apr_hash_do, List.foldl_cons] at this ⊢
    rw [this, make_ghost_prev]

theorem apr_hash_do_make_ghost_nodup (l : apr_hash) (ctx : context)
    (h : keys_nodup ctx.curr) : keys_nodup (apr_hash_do make_ghost ctx l).curr := by
  induction l generalizing ctx with
  | nil => exact h
  | cons hd tl ih =>
    have h' : keys_nodup (make_ghost ctx hd.1 hd.2).curr := by
      rw [make_ghost_eq]
      split
      · exact keys_nodup_apr_hash_set _ _ _ h
      · exact h
    have := ih (make_ghost ctx hd.1 hd.2) h'
    simpa only [apr_hash_do, List.foldl_cons] using this

theorem apr_hash_do_make_ghost_get (l : apr_hash) (ctx : context) (hl : keys_nodup l)
    (k : Nat) :
    apr_hash_get (apr_hash_do make_ghost ctx l).curr k =
      match apr_hash_get l k with
      | some e =>
        if apr_skiplist_size e.list > 0 then some ⟨apr_skiplist_init, e.dest⟩
        else apr_hash_get ctx.curr k
      | none => apr_hash_get ctx.curr k := by
  induction l generalizing ctx with
  | nil => simp [apr_hash_do, apr_hash_get]
  | cons hd tl ih =>
    obtain ⟨k0, v0⟩ := hd
    have hnd : k0 ∉ tl.map Prod.fst ∧ keys_nodup tl := by
      unfold keys_nodup at hl ⊢
      simpa using hl
    have step := ih (make_ghost ctx k0 v0) hnd.2
    simp only [apr_hash_do, List.foldl_cons] at step ⊢
    rw [step]
    by_cases hk : k0 = k
    · subst hk
      have hnone : apr_hash_get tl k0 = none := (apr_hash_get_eq_none tl k0).mpr hnd.1
      simp only [hnone, apr_hash_get, if_true]
      rw [make_ghost_eq]
      by_cases hp : apr_skiplist_size v0.list > 0
      · simp only [hp, if_true, apr_hash_get_set]
      · simp only [hp, if_false]
    · have hk' : ¬ k = k0 := fun e => hk e.symm
      have hg : apr_hash_get (make_ghost ctx k0 v0).curr k = apr_hash_get ctx.curr k := by
        rw [make_ghost_eq]
        split
        · simp [apr_hash_get_set, hk']
        · rfl
      simp only [apr_hash_get, hk, if_false, hg]

/-- C6: after `swap_hash` the table `prev` is the old table `curr`, entry for entry, and
the table `curr` holds exactly the sources whose port list in the new `prev` is not empty,
each with an empty port list and the destination of its entry in `prev`; a source whose
port list in `prev` is empty, and a source that has no entry in the new `prev` (one that
was in the old `prev` only, or nowhere), has no entry in `curr`. -/
theorem C6_swap_hash_rotation (ctx : context) (h : keys_nodup ctx.curr) :
    (swap_hash ctx).prev = ctx.curr ∧
    (∀ s e, apr_hash_get ctx.curr s = some e → apr_skiplist_size e.list > 0 →
      apr_hash_get (swap_hash ctx).curr s = some ⟨[], e.dest⟩ ∧
        size_current (swap_hash ctx) s = 0) ∧
    (∀ s e, apr_hash_get ctx.curr s = some e → apr_skiplist_size e.list = 0 →
      apr_hash_get (swap_hash ctx).curr s = none) ∧
    (∀ s, apr_hash_get ctx.curr s = none → apr_hash_get (swap_hash ctx).curr s = none) ∧
    keys_nodup (swap_hash ctx).curr := by
  have hget : ∀ s, apr_hash_get (swap_hash ctx).curr s =
      match apr_hash_get ctx.curr s with
      | some e => if apr_skiplist_size e.list > 0 then some ⟨apr_skiplist_init, e.dest⟩ else none
      | none => none := by
    intro s
    unfold swap_hash
    simp only [apr_hash_clear]
    rw [apr_hash_do_make_ghost_get _ _ h]
    simp [apr_hash_get]
  refine ⟨?_, ?_, ?_, ?_, ?_⟩
  · unfold swap_hash
    simp only [apr_hash_do_make_ghost_prev]
  · intro s e hs hpos
    have := hget s
    rw [hs] at this
    simp only [hpos, if_true] at this
    refine ⟨this, ?_⟩
    unfold size_current
    rw [this]
    rfl
  · intro s e hs hz
    have := hget s
    rw [hs] at this
    simpa [hz] using this
  · intro s hs
    have := hget s
    rw [hs] at this
    exact this
  · unfold swap_hash
    exact apr_hash_do_make_ghost_nodup _ _ (by simp [apr_hash_clear, keys_nodup])

/-- The theorem `C6_swap_hash_rotation` at a pair of windows in which source 1 has two
ports in `curr`, source 7 has an empty list in `curr`, and source 9 is in `prev` only. -/
theorem C6_swap_hash_rotation_witness :
    keys_nodup [(1, (⟨[⟨22, 0⟩, ⟨80, 0⟩], 5⟩ : element)), (7, ⟨[], 6⟩)] ∧
    apr_hash_get
      (swap_hash ⟨[(9, ⟨[⟨443, 0⟩], 4⟩)], [(1, ⟨[⟨22, 0⟩, ⟨80, 0⟩], 5⟩), (7, ⟨[], 6⟩)]⟩).curr 1
      = some ⟨[], 5⟩ :=
  ⟨by decide,
   ((C6_swap_hash_rotation
      ⟨[(9, ⟨[⟨443, 0⟩], 4⟩)], [(1, ⟨[⟨22, 0⟩, ⟨80, 0⟩], 5⟩), (7, ⟨[], 6⟩)]⟩
      (by decide)).2.1 1 ⟨[⟨22, 0⟩, ⟨80, 0⟩], 5⟩ (by decide) (by decide)).1⟩

/-- C7 (the code departs from the claim): handling the event `(host 1, dest 2, port 80)`
twice leaves port 80 twice in the port list of host 1, with `size_current = 2`, as soon as
the two pool bytes behind the two port cells differ (here `0x0000` and `0x0001`), on
either byte order: `skiplist_compare` reads an `unsigned int` at a cell that holds an
`unsigned short`, so the two cells do not compare equal.  With equal bytes behind both
cells the port is kept once. -/
theorem C7_same_port_kept_twice :
    size_current (handle_event true ⟨[], []⟩ ⟨1, 2, 80⟩ 0) 1 = 1 ∧
    (handle_event true (handle_event true ⟨[], []⟩ ⟨1, 2, 80⟩ 0) ⟨1, 2, 80⟩ 1).curr
      = [(1, ⟨[⟨80, 0⟩, ⟨80, 1⟩], 2⟩)] ∧
    size_current (handle_event true (handle_event true ⟨[], []⟩ ⟨1, 2, 80⟩ 0) ⟨1, 2, 80⟩ 1) 1
      = 2 ∧
    size_current (handle_event false (handle_event false ⟨[], []⟩ ⟨1, 2, 80⟩ 0) ⟨1, 2, 80⟩ 1) 1
      = 2 ∧
    size_current (handle_event true (handle_event true ⟨[], []⟩ ⟨1, 2, 80⟩ 0) ⟨1, 2, 80⟩ 0) 1
      = 1 := by
  decide

/-- C8 (the code departs from the claim): with `time_period = 120` the sample timer is
armed with 120 seconds; at a residual time of 90 seconds, which lies between 0 and the
period, the weight that `calculate_rates` applies to the previous-window count is
`90 / 60 = 3/2`, not `90 / 120`, and it exceeds 1; for a source with 2 ports in the
previous window and a ghost entry in the current one the rate is 3, above `p + c = 2`. -/
theorem C8_weight_divides_by_sixty :
    (sample_its ⟨3, 120⟩).it_value = ⟨120, 0⟩ ∧
    weight ⟨90, 0⟩ = 3 / 2 ∧
    weight ⟨90, 0⟩ ≠ 90 / 120 ∧
    ¬ (weight ⟨90, 0⟩ ≤ 1) ∧
    rate ⟨[(1, ⟨[⟨22, 0⟩, ⟨80, 0⟩], 5⟩)], [(1, ⟨[], 5⟩)]⟩ ⟨90, 0⟩ 1 ⟨[], 5⟩ = 3 ∧
    size_previous ⟨[(1, ⟨[⟨22, 0⟩, ⟨80, 0⟩], 5⟩)], [(1, ⟨[], 5⟩)]⟩ 1
      + size_current ⟨[(1, ⟨[⟨22, 0⟩, ⟨80, 0⟩], 5⟩)], [(1, ⟨[], 5⟩)]⟩ 1 = 2 := by
  have h90 : to_double (90 : ℚ) = 90 := by
    simpa using to_double_natCast 90 (by norm_num)
  have h32 : to_double (3 / 2 : ℚ) = 3 / 2 := by
    have := to_double_exact 3 (-1) (by norm_num)
    norm_num at this ⊢
    exact this
  have h3 : to_double (3 : ℚ) = 3 := by
    simpa using to_double_natCast 3 (by norm_num)
  have hw : weight ⟨90, 0⟩ = 3 / 2 := by
    norm_num [weight, h90, h32]
  refine ⟨rfl, hw, ?_, ?_, ?_, by decide⟩
  · rw [hw]; norm_num
  · rw [hw]; norm_num
  · norm_num [rate, hw, apr_hash_get, apr_skiplist_size, h3]

theorem skiplist_compare_eq_zero (le : Bool) (a b : port_cell) :
    skiplist_compare le a b = 0 ↔ uint_at le a = uint_at le b := by
  unfold skiplist_compare
  by_cases h1 : uint_at le a < uint_at le b
  · simp only [h1, if_true]
    constructor
    · intro h; exact absurd h (by decide)
    · intro h; omega
  · by_cases h2 : uint_at le a = uint_at le b
    · simp [h2]
    · simp [h1, h2]

theorem uint_at_port (le : Bool) (a b : port_cell) (h : uint_at le a = uint_at le b) :
    a.port % 65536 = b.port % 65536 := by
  unfold uint_at at h
  cases le
  · simp only [if_false, Bool.false_eq_true] at h
    omega
  · simp only [if_true] at h
    omega

theorem replace_compare_length_le (sl : apr_skiplist) (data : port_cell)
    (comp : port_cell → port_cell → Int) :
    (apr_skiplist_replace_compare sl data comp).length ≤ sl.length + 1 := by
  induction sl with
  | nil => simp [apr_skiplist_replace_compare]
  | cons x rest ih =>
    unfold apr_skiplist_replace_compare
    split
    · simp only [List.length_cons]; omega
    · split
      · simp only [List.length_cons]; omega
      · simp

theorem replace_compare_mem (sl : apr_skiplist) (data : port_cell)
    (comp : port_cell → port_cell → Int) (y : port_cell)
    (h : y ∈ apr_skiplist_replace_compare sl data comp) : y = data ∨ y ∈ sl := by
  induction sl with
  | nil => simpa [apr_skiplist_replace_compare] using h
  | cons x rest ih =>
    unfold apr_skiplist_replace_compare at h
    split at h
    · rcases List.mem_cons.mp h with h | h
      · exact Or.inr (h ▸ List.mem_cons_self _ _)
      · rcases ih h with h | h
        · exact Or.inl h
        · exact Or.inr (List.mem_cons_of_mem _ h)
    · split at h
      · rcases ih h with h | h
        · exact Or.inl h
        · exact Or.inr (List.mem_cons_of_mem _ h)
      · rcases List.mem_cons.mp h with h | h
        · exact Or.inl h
        · exact Or.inr h

theorem replace_compare_length_fresh (sl : apr_skiplist) (data : port_cell)
    (comp : port_cell → port_cell → Int) (h : ∀ x ∈ sl, comp data x ≠ 0) :
    (apr_skiplist_replace_compare sl data comp).length = sl.length + 1 := by
  induction sl with
  | nil => simp [apr_skiplist_replace_compare]
  | cons x rest ih =>
    have hx : comp data x ≠ 0 := h x (List.mem_cons_self _ _)
    have hrest : ∀ y ∈ rest, comp data y ≠ 0 := fun y hy => h y (List.mem_cons_of_mem _ hy)
    unfold apr_skiplist_replace_compare
    split
    · simp only [List.length_cons, ih hrest]
    · simp only [hx, if_false, List.length_cons]

theorem handle_event_eq (le : Bool) (ctx : context) (e : event) (pad : Nat) :
    handle_event le ctx e pad =
      match apr_hash_get ctx.curr e.host with
      | none =>
        ⟨ctx.prev, apr_hash_set ctx.curr e.host
          ⟨apr_skiplist_replace_compare [] ⟨e.port, pad⟩ (skiplist_compare le), e.dest⟩⟩
      | some v =>
        ⟨ctx.prev, apr_hash_set ctx.curr e.host
          ⟨apr_skiplist_replace_compare v.list ⟨e.port, pad⟩ (skiplist_compare le), v.dest⟩⟩ :=
  rfl

theorem handle_event_prev (le : Bool) (ctx : context) (e : event) (pad : Nat) :
    (handle_event le ctx e pad).prev = ctx.prev := by
  rw [handle_event_eq]
  cases apr_hash_get ctx.curr e.host <;> rfl

theorem handle_event_curr (le : Bool) (ctx : context) (e : event) (pad : Nat) :
    (handle_event le ctx e pad).curr =
      apr_hash_set ctx.curr e.host
        ⟨apr_skiplist_replace_compare (ports_current ctx e.host) ⟨e.port, pad⟩
            (skiplist_compare le),
          match apr_hash_get ctx.curr e.host with
          | some v => v.dest
          | none => e.dest⟩ := by
  rw [handle_event_eq]
  unfold ports_current
  cases apr_hash_get ctx.curr e.host <;> rfl

theorem handle_events_prev (le : Bool) (evs : List (event × Nat)) (ctx : context) :
    (handle_events le ctx evs).prev = ctx.prev := by
  induction evs generalizing ctx with
  | nil => rfl
  | cons hd tl ih =>
    have := ih (handle_event le ctx hd.1 hd.2)
    simp only [handle_events, List.foldl_cons] at this ⊢
    rw [this, handle_event_prev]

theorem ports_current_handle_event (le : Bool) (ctx : context) (e : event) (pad s : Nat) :
    ports_current (handle_event le ctx e pad) s =
      if e.host = s then
        apr_skiplist_replace_compare (ports_current ctx s) ⟨e.port, pad⟩ (skiplist_compare le)
      else ports_current ctx s := by
  by_cases h : e.host = s
  · subst h
    simp only [if_true]
    conv_lhs => unfold ports_current
    rw [handle_event_curr, apr_hash_get_set]
    simp
  · have h' : ¬ s = e.host := fun x => h x.symm
    simp only [h, if_false]
    conv_lhs => unfold ports_current
    rw [handle_event_curr, apr_hash_get_set]
    simp only [h', if_false]
    rfl

theorem entry_handle_event (le : Bool) (ctx : context) (e : event) (pad s : Nat)
    (h : e.host = s ∨ apr_hash_get ctx.curr s ≠ none) :
    apr_hash_get (handle_event le ctx e pad).curr s ≠ none := by
  rw [handle_event_curr, apr_hash_get_set]
  by_cases hs : s = e.host
  · simp [hs]
  · simp only [hs, if_false]
    rcases h with h | h
    · exact absurd h.symm hs
    · exact h

theorem events_from_cons (s : Nat) (ep : event × Nat) (tl : List (event × Nat)) :
    events_from s (ep :: tl) = if ep.1.host = s then ep :: events_from s tl
      else events_from s tl := by
  unfold events_from
  by_cases h : ep.1.host = s <;> simp [List.filter_cons, h]

theorem handle_events_cons (le : Bool) (ctx : context) (ep : event × Nat)
    (tl : List (event × Nat)) :
    handle_events le ctx (ep :: tl) = handle_events le (handle_event le ctx ep.1 ep.2) tl :=
  rfl

theorem size_handle_events_le (le : Bool) (s : Nat) (evs : List (event × Nat))
    (ctx : context) :
    (ports_current (handle_events le ctx evs) s).length
      ≤ (ports_current ctx s).length + (events_from s evs).length := by
  induction evs generalizing ctx with
  | nil => simp [handle_events, events_from]
  | cons ep tl ih =>
    rw [handle_events_cons, events_from_cons]
    have step := ih (handle_event le ctx ep.1 ep.2)
    rw [ports_current_handle_event] at step
    by_cases h : ep.1.host = s
    · simp only [h, if_true, List.length_cons] at step ⊢
      have := replace_compare_length_le (ports_current ctx s) ⟨ep.1.port, ep.2⟩
        (skiplist_compare le)
      omega
    · simp only [h, if_false] at step ⊢
      exact step

theorem size_handle_events_distinct (le : Bool) (s : Nat) (evs : List (event × Nat))
    (ctx : context)
    (hnd : ((events_from s evs).map (fun ep => ep.1.port % 65536)).Nodup)
    (hfresh : ∀ c ∈ ports_current ctx s,
      c.port % 65536 ∉ (events_from s evs).map (fun ep => ep.1.port % 65536)) :
    (ports_current (handle_events le ctx evs) s).length
      = (ports_current ctx s).length + (events_from s evs).length := by
  induction evs generalizing ctx with
  | nil => simp [handle_events, events_from]
  | cons ep tl ih =>
    rw [handle_events_cons]
    rw [events_from_cons] at hnd hfresh ⊢
    by_cases h : ep.1.host = s
    · simp only [h, if_true, List.map_cons, List.nodup_cons, List.mem_cons, not_or,
        List.length_cons] at hnd hfresh ⊢
      have hlen : (apr_skiplist_replace_compare (ports_current ctx s) ⟨ep.1.port, ep.2⟩
          (skiplist_compare le)).length = (ports_current ctx s).length + 1 := by
        apply replace_compare_length_fresh
        intro x hx hz
        have := uint_at_port le _ _ ((skiplist_compare_eq_zero le _ _).mp hz)
        exact (hfresh x hx).1 this.symm
      have step := ih (handle_event le ctx ep.1 ep.2) hnd.2 (by
        intro c hc
        rw [ports_current_handle_event] at hc
        simp only [h, if_true] at hc
        rcases replace_compare_mem _ _ _ _ hc with hc | hc
        · rw [hc]
          exact hnd.1
        · exact (hfresh c hc).2)
      rw [step, ports_current_handle_event]
      simp only [h, if_true, hlen]
      omega
    · simp only [h, if_false] at hnd hfresh ⊢
      have step := ih (handle_event le ctx ep.1 ep.2) hnd (by
        intro c hc
        rw [ports_current_handle_event] at hc
        simp only [h, if_false] at hc
        exact hfresh c hc)
      rw [step, ports_current_handle_event]
      simp only [h, if_false]

theorem entry_handle_events (le : Bool) (s : Nat) (evs : List (event × Nat)) (ctx : context)
    (h : events_from s evs ≠ [] ∨ apr_hash_get ctx.curr s ≠ none) :
    apr_hash_get (handle_events le ctx evs).curr s ≠ none := by
  induction evs generalizing ctx with
  | nil =>
    rcases h with h | h
    · exact absurd rfl h
    · exact h
  | cons ep tl ih =>
    rw [handle_events_cons]
    rw [events_from_cons] at h
    by_cases hs : ep.1.host = s
    · exact ih _ (Or.inr (entry_handle_event le ctx ep.1 ep.2 s (Or.inl hs)))
    · simp only [hs, if_false] at h
      rcases h with h | h
      · exact ih _ (Or.inl h)
      · exact ih _ (Or.inr (entry_handle_event le ctx ep.1 ep.2 s (Or.inr h)))

/-- C9, counterexample to the claim as stated: with `num_packets = 3`, an empty previous
window and an empty blacklist, four SYN events from source 1 that all go to port 80 leave
one port in the port list of source 1 (the four port cells compare equal), and the next
`calculate_rates` on source 1 does not insert it. -/
theorem C9_four_syns_same_port_not_blacklisted :
    env_default.num_packets = 3 ∧
    apr_hash_get
      (handle_events true ⟨[], []⟩
        [(⟨1, 2, 80⟩, 0), (⟨1, 2, 80⟩, 0), (⟨1, 2, 80⟩, 0), (⟨1, 2, 80⟩, 0)]).curr 1
      = some ⟨[⟨80, 0⟩], 2⟩ ∧
    1 ∉ calculate_rates env_default ⟨59, 0⟩
      (handle_events true ⟨[], []⟩
        [(⟨1, 2, 80⟩, 0), (⟨1, 2, 80⟩, 0), (⟨1, 2, 80⟩, 0), (⟨1, 2, 80⟩, 0)])
      [] 1 ⟨[⟨80, 0⟩], 2⟩ := by
  refine ⟨rfl, by decide, ?_⟩
  rw [calculate_rates_eq, rate_of_absent_prev _ _ _ _ (by decide), threshold_env_default]
  norm_num [apr_skiplist_size]

/-- C9, as amended: with `num_packets = 3`, for a source `s` that has no entry in the
previous window, no port yet in the current one (`size_current = 0`), and is not
blacklisted: after a batch of events of which exactly 3 come from `s`, whatever their
ports, `s` has an entry in the current window and the next `calculate_rates` on it does
not blacklist `s`; after a batch of which exactly 4 come from `s`, with pairwise distinct
destination ports, and when the blacklist map has room, the next `calculate_rates` on the
entry of `s` inserts `s`. -/
theorem C9_threshold_on_distinct_ports (le : Bool) (env : env) (it_value : timespec)
    (ctx : context) (blacklist : bpf_map) (s : Nat) (evs : List (event × Nat))
    (henv : env.num_packets = 3)
    (hprev : apr_hash_get ctx.prev s = none) (hcurr : size_current ctx s = 0)
    (hbl : s ∉ blacklist) :
    ((events_from s evs).length = 3 →
      ∃ value, apr_hash_get (handle_events le ctx evs).curr s = some value ∧
        s ∉ calculate_rates env it_value (handle_events le ctx evs) blacklist s value) ∧
    ((events_from s evs).length = 4 →
      ((events_from s evs).map (fun ep => ep.1.port % 65536)).Nodup →
      blacklist.length < max_entries →
      ∃ value, apr_hash_get (handle_events le ctx evs).curr s = some value ∧
        s ∈ calculate_rates env it_value (handle_events le ctx evs) blacklist s value) := by
  have hp0 : ports_current ctx s = [] := by
    unfold size_current apr_skiplist_size at hcurr
    unfold ports_current
    cases hg : apr_hash_get ctx.curr s with
    | none => rfl
    | some v =>
      rw [hg] at hcurr
      exact List.length_eq_zero.mp hcurr
  have hprev' : apr_hash_get (handle_events le ctx evs).prev s = none := by
    rw [handle_events_prev]
    exact hprev
  have hentry : (events_from s evs) ≠ [] →
      ∃ value, apr_hash_get (handle_events le ctx evs).curr s = some value ∧
        value.list = ports_current (handle_events le ctx evs) s := by
    intro hne
    have := entry_handle_events le s evs ctx (Or.inl hne)
    cases hv : apr_hash_get (handle_events le ctx evs).curr s with
    | none => exact absurd hv this
    | some value =>
      refine ⟨value, rfl, ?_⟩
      unfold ports_current
      rw [hv]
  have hth : threshold env = 3 := by
    rw [threshold_eq env (by rw [henv]; decide), henv]
    norm_num
  constructor
  · intro h3
    have hne : events_from s evs ≠ [] := by
      intro h0
      rw [h0] at h3
      exact absurd h3 (by decide)
    obtain ⟨value, hv, hl⟩ := hentry hne
    refine ⟨value, hv, ?_⟩
    have hsz := size_handle_events_le le s evs ctx
    rw [hp0, h3, ← hl] at hsz
    simp only [List.length_nil, Nat.zero_add] at hsz
    rw [calculate_rates_eq, rate_of_absent_prev _ _ _ _ hprev', hth]
    have hq : ¬ (((apr_skiplist_size value.list % 4294967296 : ℕ) : ℚ) > 3) := by
      have hmod : apr_skiplist_size value.list % 4294967296 ≤ 3 := by
        unfold apr_skiplist_size
        omega
      have : ((apr_skiplist_size value.list % 4294967296 : ℕ) : ℚ) ≤ 3 := by
        exact_mod_cast hmod
      exact not_lt.mpr this
    rw [if_neg hq, if_neg hbl]
    exact hbl
  · intro h4 hnd hroom
    have hne : events_from s evs ≠ [] := by
      intro h0
      rw [h0] at h4
      exact absurd h4 (by decide)
    obtain ⟨value, hv, hl⟩ := hentry hne
    refine ⟨value, hv, ?_⟩
    have hsz := size_handle_events_distinct le s evs ctx hnd (by
      intro c hc
      rw [hp0] at hc
      exact absurd hc (List.not_mem_nil c))
    rw [hp0, h4, ← hl] at hsz
    simp only [List.length_nil, Nat.zero_add] at hsz
    rw [calculate_rates_eq, rate_of_absent_prev _ _ _ _ hprev', hth]
    have hq : ((apr_skiplist_size value.list % 4294967296 : ℕ) : ℚ) > 3 := by
      unfold apr_skiplist_size
      rw [hsz]
      norm_num
    rw [if_pos hq, if_neg hbl, mem_bpf_map_update_elem]
    exact Or.inr ⟨rfl, hbl, by decide, hroom⟩

/-- The theorem `C9_threshold_on_distinct_ports` at the SYNs of source 1 to the ports 22,
23, 80 and 443, interleaved with a SYN of source 7: source 1 is inserted into the empty
blacklist. -/
theorem C9_threshold_on_distinct_ports_witness :
    (events_from 1
      [(⟨1, 2, 22⟩, 0), (⟨1, 2, 23⟩, 0), (⟨7, 2, 80⟩, 0), (⟨1, 2, 80⟩, 0), (⟨1, 2, 443⟩, 0)]).length
      = 4 ∧
    ∃ value,
      apr_hash_get (handle_events true ⟨[], []⟩
        [(⟨1, 2, 22⟩, 0), (⟨1, 2, 23⟩, 0), (⟨7, 2, 80⟩, 0), (⟨1, 2, 80⟩, 0),
          (⟨1, 2, 443⟩, 0)]).curr 1 = some value ∧
      1 ∈ calculate_rates env_default ⟨59, 0⟩ (handle_events true ⟨[], []⟩
        [(⟨1, 2, 22⟩, 0), (⟨1, 2, 23⟩, 0), (⟨7, 2, 80⟩, 0), (⟨1, 2, 80⟩, 0),
          (⟨1, 2, 443⟩, 0)]) [] 1 value :=
  ⟨by decide,
   (C9_threshold_on_distinct_ports true env_default ⟨59, 0⟩ ⟨[], []⟩ [] 1
      [(⟨1, 2, 22⟩, 0), (⟨1, 2, 23⟩, 0), (⟨7, 2, 80⟩, 0), (⟨1, 2, 80⟩, 0), (⟨1, 2, 443⟩, 0)]
      rfl rfl rfl (by simp)).2 (by decide) (by decide) (by decide)⟩

theorem calculate_rates_mem_of_ne (env : env) (it_value : timespec) (rec : context)
    (blacklist : bpf_map) (key : Nat) (value : element) (a : Nat) (ha : a ≠ key) :
    a ∈ calculate_rates env it_value rec blacklist key value ↔ a ∈ blacklist := by
  rw [calculate_rates_eq]
  by_cases hr : rate rec it_value key value > threshold env <;>
    by_cases hm : key ∈ blacklist <;>
    simp [hr, hm, mem_bpf_map_update_elem, mem_bpf_map_delete_elem, ha]

theorem apr_hash_do_calculate_rates_mem (env : env) (gettime : Nat → timespec)
    (rec : context) (l : apr_hash) (blacklist : bpf_map) (a : Nat)
    (ha : apr_hash_get l a = none) :
    a ∈ apr_hash_do
        (fun bl key value => calculate_rates env (gettime key) rec bl key value) blacklist l
      ↔ a ∈ blacklist := by
  induction l generalizing blacklist with
  | nil => rfl
  | cons hd tl ih =>
    obtain ⟨k0, v0⟩ := hd
    have hk : ¬ k0 = a := by
      intro h
      simp [apr_hash_get, h] at ha
    have htl : apr_hash_get tl a = none := by
      simpa [apr_hash_get, hk] using ha
    have step := ih (calculate_rates env (gettime k0) rec blacklist k0 v0) htl
    simp only [apr_hash_do, List.foldl_cons] at step ⊢
    rw [step]
    exact calculate_rates_mem_of_ne env (gettime k0) rec blacklist k0 v0 a
      (fun h => hk h.symm)

theorem measure_tick_mem_absent (env : env) (gettime : Nat → timespec) (ctx : context)
    (blacklist : bpf_map) (a : Nat) (ha : apr_hash_get ctx.curr a = none) :
    a ∈ measure_tick env gettime ctx blacklist ↔ a ∈ blacklist :=
  apr_hash_do_calculate_rates_mem env gettime ctx ctx.curr blacklist a ha

theorem apr_hash_do_make_ghost_absent (l : apr_hash) (ctx : context) (s : Nat)
    (hl : apr_hash_get l s = none) (hc : apr_hash_get ctx.curr s = none) :
    apr_hash_get (apr_hash_do make_ghost ctx l).curr s = none := by
  induction l generalizing ctx with
  | nil => exact hc
  | cons hd tl ih =>
    obtain ⟨k0, v0⟩ := hd
    have hk : ¬ k0 = s := by
      intro h
      simp [apr_hash_get, h] at hl
    have hk' : ¬ s = k0 := fun h => hk h.symm
    have htl : apr_hash_get tl s = none := by
      simpa [apr_hash_get, hk] using hl
    have hg : apr_hash_get (make_ghost ctx k0 v0).curr s = none := by
      rw [make_ghost_eq]
      split
      · simp [apr_hash_get_set, hk', hc]
      · exact hc
    have step := ih (make_ghost ctx k0 v0) htl hg
    simpa only [apr_hash_do, List.foldl_cons] using step

theorem swap_hash_absent (ctx : context) (s : Nat) (hc : apr_hash_get ctx.curr s = none) :
    apr_hash_get (swap_hash ctx).curr s = none := by
  unfold swap_hash
  exact apr_hash_do_make_ghost_absent _ _ s hc (by simp [apr_hash_clear, apr_hash_get])

theorem swap_hash_empty_list (ctx : context) (s : Nat) (hn : keys_nodup ctx.curr)
    (hz : size_current ctx s = 0) : apr_hash_get (swap_hash ctx).curr s = none := by
  unfold swap_hash
  simp only [apr_hash_clear]
  rw [apr_hash_do_make_ghost_get _ _ hn]
  unfold size_current at hz
  cases hg : apr_hash_get ctx.curr s with
  | none => simp [apr_hash_get]
  | some v =>
    rw [hg] at hz
    have hz' : apr_skiplist_size v.list = 0 := hz
    simp [hz', apr_hash_get]

theorem handle_event_get_of_ne (le : Bool) (ctx : context) (e : event) (pad s : Nat)
    (h : ¬ e.host = s) :
    apr_hash_get (handle_event le ctx e pad).curr s = apr_hash_get ctx.curr s := by
  have h' : ¬ s = e.host := fun x => h x.symm
  rw [handle_event_curr, apr_hash_get_set]
  simp only [h', if_false]

theorem handle_events_get_of_silent (le : Bool) (s : Nat) (evs : List (event × Nat))
    (ctx : context) (h : events_from s evs = []) :
    apr_hash_get (handle_events le ctx evs).curr s = apr_hash_get ctx.curr s := by
  induction evs generalizing ctx with
  | nil => rfl
  | cons ep tl ih =>
    rw [events_from_cons] at h
    by_cases hs : ep.1.host = s
    · simp [hs] at h
    · simp only [hs, if_false] at h
      rw [handle_events_cons, ih _ h, handle_event_get_of_ne le ctx ep.1 ep.2 s hs]

theorem dispatch_keeps_absent (le : Bool) (env : env) (st : loop_state) (r : ready) (s : Nat)
    (hr : silent s r) (hc : apr_hash_get st.ctx.curr s = none) :
    apr_hash_get (dispatch le env st r).ctx.curr s = none ∧
      (s ∈ (dispatch le env st r).blacklist ↔ s ∈ st.blacklist) := by
  cases r with
  | ringbuf_fd evs =>
    refine ⟨?_, Iff.rfl⟩
    show apr_hash_get (handle_events le st.ctx evs).curr s = none
    rw [handle_events_get_of_silent le s evs st.ctx hr]
    exact hc
  | sample_fd => exact ⟨swap_hash_absent st.ctx s hc, Iff.rfl⟩
  | measure_fd gettime =>
    exact ⟨hc, measure_tick_mem_absent env gettime st.ctx st.blacklist s hc⟩

theorem main_loop_keeps_absent (le : Bool) (env : env) (rs : List ready) (st : loop_state)
    (s : Nat) (hr : ∀ r ∈ rs, silent s r) (hc : apr_hash_get st.ctx.curr s = none) :
    apr_hash_get (main_loop le env st rs).ctx.curr s = none ∧
      (s ∈ (main_loop le env st rs).blacklist ↔ s ∈ st.blacklist) := by
  induction rs generalizing st with
  | nil => exact ⟨hc, Iff.rfl⟩
  | cons r tl ih =>
    have h1 := dispatch_keeps_absent le env st r s (hr r (List.mem_cons_self _ _)) hc
    have h2 := ih (dispatch le env st r) (fun x hx => hr x (List.mem_cons_of_mem _ hx)) h1.1
    simp only [main_loop, List.foldl_cons] at h2 ⊢
    exact ⟨h2.1, h2.2.trans h1.2⟩

/-- C11, counterexample to the claim as stated: host 1 has an entry in `curr` with
destination 2, a real one (port 22) or a ghost (no port); after `handle_event` on the
event `(host 1, dest 3, port 80)` the entry holds the new port and still the destination
2, not 3. -/
theorem C11_destination_not_updated :
    handle_event true ⟨[], [(1, ⟨[⟨22, 0⟩], 2⟩)]⟩ ⟨1, 3, 80⟩ 0
      = ⟨[], [(1, ⟨[⟨22, 0⟩, ⟨80, 0⟩], 2⟩)]⟩ ∧
    handle_event true ⟨[(1, ⟨[⟨22, 0⟩], 2⟩)], [(1, ⟨[], 2⟩)]⟩ ⟨1, 3, 80⟩ 0
      = ⟨[(1, ⟨[⟨22, 0⟩], 2⟩)], [(1, ⟨[⟨80, 0⟩], 2⟩)]⟩ ∧
    apr_hash_get (handle_event true ⟨[], [(1, ⟨[⟨22, 0⟩], 2⟩)]⟩ ⟨1, 3, 80⟩ 0).curr 1
      ≠ some ⟨[⟨22, 0⟩, ⟨80, 0⟩], 3⟩ := by
  decide

/-- C11, as amended: after `handle_event` on the event `(host, dest, port)` the host has
an entry in `curr`; its destination is `dest` when the host had no entry in `curr` before
the call, and it is the destination of the entry that the host already had (a real one or
a ghost) otherwise. -/
theorem C11_destination_of_first_event (le : Bool) (ctx : context) (e : event) (pad : Nat) :
    (apr_hash_get ctx.curr e.host = none →
      ∃ v, apr_hash_get (handle_event le ctx e pad).curr e.host = some v ∧
        v.dest = e.dest) ∧
    (∀ v0, apr_hash_get ctx.curr e.host = some v0 →
      ∃ v, apr_hash_get (handle_event le ctx e pad).curr e.host = some v ∧
        v.dest = v0.dest) := by
  constructor
  · intro h
    rw [handle_event_curr, apr_hash_get_set, h]
    exact ⟨_, if_pos rfl, rfl⟩
  · intro v0 h
    rw [handle_event_curr, apr_hash_get_set, h]
    exact ⟨_, if_pos rfl, rfl⟩

/-- The theorem `C11_destination_of_first_event` at a first event of host 1, which stores
its destination 3, and the same event when host 1 has a ghost entry with destination 2,
which keeps 2. -/
theorem C11_destination_of_first_event_witness :
    (∃ v, apr_hash_get (handle_event true ⟨[], []⟩ ⟨1, 3, 80⟩ 0).curr 1 = some v ∧
      v.dest = 3) ∧
    (∃ v, apr_hash_get
        (handle_event true ⟨[(1, ⟨[⟨22, 0⟩], 2⟩)], [(1, ⟨[], 2⟩)]⟩ ⟨1, 3, 80⟩ 0).curr 1
        = some v ∧ v.dest = 2) :=
  ⟨(C11_destination_of_first_event true ⟨[], []⟩ ⟨1, 3, 80⟩ 0).1 (by decide),
   (C11_destination_of_first_event true ⟨[(1, ⟨[⟨22, 0⟩], 2⟩)], [(1, ⟨[], 2⟩)]⟩
      ⟨1, 3, 80⟩ 0).2 ⟨[], 2⟩ (by decide)⟩

/-- C12: a measure tick leaves the blacklist membership of every address that has no entry
in the current window as it is; hence a blacklisted source `s` whose port list in the
current window is empty (or missing) at a rotation has no entry after that rotation, and
stays blacklisted through every later sequence of measure ticks, rotations and drained
records in which no record comes from `s`. -/
theorem C12_absent_source_stays_blacklisted (le : Bool) (env : env) :
    (∀ (gettime : Nat → timespec) (ctx : context) (blacklist : bpf_map) (a : Nat),
      apr_hash_get ctx.curr a = none →
        (a ∈ measure_tick env gettime ctx blacklist ↔ a ∈ blacklist)) ∧
    (∀ (ctx : context) (blacklist : bpf_map) (s : Nat) (rs : List ready),
      keys_nodup ctx.curr → size_current ctx s = 0 → s ∈ blacklist →
      (∀ r ∈ rs, silent s r) →
        apr_hash_get (swap_hash ctx).curr s = none ∧
        s ∈ (main_loop le env ⟨swap_hash ctx, blacklist⟩ rs).blacklist) := by
  constructor
  · intro gettime ctx blacklist a ha
    exact measure_tick_mem_absent env gettime ctx blacklist a ha
  · intro ctx blacklist s rs hn hz hs hr
    have h0 := swap_hash_empty_list ctx s hn hz
    refine ⟨h0, ?_⟩
    exact (main_loop_keeps_absent le env rs ⟨swap_hash ctx, blacklist⟩ s hr h0).2.mpr hs

/-- The theorem `C12_absent_source_stays_blacklisted` at the blacklisted source 1 with a
ghost entry in the current window: after the rotation, a measure tick, records of source
7, a second rotation and a second measure tick, source 1 is still blacklisted. -/
theorem C12_absent_source_stays_blacklisted_witness :
    keys_nodup [(1, (⟨[], 2⟩ : element))] ∧
    size_current ⟨[(1, ⟨[⟨22, 0⟩, ⟨23, 0⟩, ⟨80, 0⟩, ⟨443, 0⟩], 2⟩)], [(1, ⟨[], 2⟩)]⟩ 1 = 0 ∧
    1 ∈ (main_loop true env_default
      ⟨swap_hash ⟨[(1, ⟨[⟨22, 0⟩, ⟨23, 0⟩, ⟨80, 0⟩, ⟨443, 0⟩], 2⟩)], [(1, ⟨[], 2⟩)]⟩, [1]⟩
      [ready.measure_fd (fun _ => ⟨59, 0⟩), ready.ringbuf_fd [(⟨7, 2, 80⟩, 0)],
        ready.sample_fd, ready.measure_fd (fun _ => ⟨59, 0⟩)]).blacklist :=
  ⟨by decide, by decide,
   ((C12_absent_source_stays_blacklisted true env_default).2
      ⟨[(1, ⟨[⟨22, 0⟩, ⟨23, 0⟩, ⟨80, 0⟩, ⟨443, 0⟩], 2⟩)], [(1, ⟨[], 2⟩)]⟩ [1] 1
      [ready.measure_fd (fun _ => ⟨59, 0⟩), ready.ringbuf_fd [(⟨7, 2, 80⟩, 0)],
        ready.sample_fd, ready.measure_fd (fun _ => ⟨59, 0⟩)]
      (by decide) (by decide) (by decide) (by decide)).2⟩

end User

end Xdpfilter
